import Mathlib

/-!
Verification development for the `cata_libintl` gettext-compatible translation
library (plural-rule expression parser/evaluator, MO catalogue loader and
translation library).  The repository ships only the public header
`src/cata_libintl.h` and the test suite `tests/cata_libintl_test.cpp`; the
implementation file itself is not part of the sources, so every operation is
modelled from the specification document, faithful to its words (grammar,
evaluation table, loader procedure, library semantics and exact error
message wording).
-/

set_option maxRecDepth 10000

namespace CataLibintl

/-- Modelled from the spec: binary operator tags of the plural-forms AST
(`PlfOp` in the header; `Literal`, `Variable` and `TerCond` are represented
by dedicated constructors of `PlfNode` so that arity invariants hold by
construction, as §3 of the spec requires). -/
inductive PlfOp where
  | Mod | Eq | NotEq | GreaterEq | Greater | LessEq | Less | And | Or
deriving DecidableEq, Repr

/-- Modelled from the spec: plural-forms AST node (`PlfNode` in the header).
`lit` carries the unsigned literal value, `var` is the variable `n`,
`bin` a binary operator node and `ter` the ternary conditional. -/
inductive PlfNode where
  | lit (v : Nat)
  | var
  | bin (op : PlfOp) (a b : PlfNode)
  | ter (a b c : PlfNode)
deriving DecidableEq, Repr

instance : Inhabited PlfNode := ⟨PlfNode.lit 0⟩

/-- Modelled from the spec (§4.B): evaluate a node against the variable `n`.
All arithmetic is unsigned and wrap-free (no operation can exceed its
operands), comparisons yield `1`/`0`, `a % b` clamps to `0` when `b = 0`,
and the ternary picks by non-zeroness of its condition. -/
def PlfNode.eval : PlfNode → Nat → Nat
  | .lit v, _ => v
  | .var, n => n
  | .bin op a b, n =>
    let x := a.eval n
    let y := b.eval n
    match op with
    | .Mod => if y = 0 then 0 else x % y
    | .Eq => if x = y then 1 else 0
    | .NotEq => if x = y then 0 else 1
    | .GreaterEq => if y ≤ x then 1 else 0
    | .Greater => if y < x then 1 else 0
    | .LessEq => if x ≤ y then 1 else 0
    | .Less => if x < y then 1 else 0
    | .And => if x ≠ 0 ∧ y ≠ 0 then 1 else 0
    | .Or => if x ≠ 0 ∨ y ≠ 0 then 1 else 0
  | .ter a b c, n => if a.eval n ≠ 0 then b.eval n else c.eval n

/-- Decimal digit characters of a positive natural number, most significant
first; the first argument is fuel making the recursion structural. -/
def natCharsAux : Nat → Nat → List Char
  | 0, _ => []
  | f + 1, v =>
    if v = 0 then [] else natCharsAux f (v / 10) ++ [Char.ofNat (48 + v % 10)]

/-- Decimal digit characters of a natural number, most significant first
(the printing used by `debug_dump` for literals). -/
def natChars (v : Nat) : List Char :=
  if v = 0 then ['0'] else natCharsAux v v

/-- Modelled from the spec (§4.A debug dump): operator spellings match the
grammar literals. -/
def opChars : PlfOp → List Char
  | .Mod => ['%']
  | .Eq => ['=', '=']
  | .NotEq => ['!', '=']
  | .GreaterEq => ['>', '=']
  | .Greater => ['>']
  | .LessEq => ['<', '=']
  | .Less => ['<']
  | .And => ['&', '&']
  | .Or => ['|', '|']

/-- Character list of the canonical fully-parenthesized dump of a node. -/
def dumpChars : PlfNode → List Char
  | .lit v => natChars v
  | .var => ['n']
  | .bin op a b => '(' :: (dumpChars a ++ opChars op ++ dumpChars b ++ [')'])
  | .ter a b c => '(' :: (dumpChars a ++ '?' :: dumpChars b ++ ':' :: dumpChars c ++ [')'])

/-- Modelled from the spec (§4.A): `PlfNode::debug_dump`, the canonical
fully-parenthesized infix form. -/
def PlfNode.debug_dump (t : PlfNode) : String := String.mk (dumpChars t)

/-! ### Lexer -/

/-- Token kinds produced by the plural-rules lexer (the header reuses `PlfOp`
for token identification; separate constructors are clearer here). -/
inductive Tok where
  | tMod | tEq | tNeq | tGe | tGt | tLe | tLt | tAnd | tOr
  | tQ | tColon | tBrOpen | tBrClose
  | tLit (v : Nat) | tVar
deriving DecidableEq, Repr

abbrev Toks := List (Tok × Nat)

/-- Largest value accepted for a numeric literal (fits in u32). -/
def u32max : Nat := 4294967295

def isDigitB (c : Char) : Bool := 48 ≤ c.toNat && c.toNat ≤ 57

/-- Value of a run of decimal digit characters, most significant first. -/
def digitsToNat (l : List Char) : Nat := l.foldl (fun a c => 10 * a + (c.toNat - 48)) 0

/-- A single-quote character, used when assembling error messages. -/
def sqStr : String := String.singleton (Char.ofNat 39)

def unexpectedCharMsg (c : Char) (p : Nat) : String :=
  "unexpected character " ++ sqStr ++ String.singleton c ++ sqStr ++ " at pos " ++ toString p

def invalidNumberMsg (lit : String) (p : Nat) : String :=
  "invalid number " ++ sqStr ++ lit ++ sqStr ++ " at pos " ++ toString p

def expectedExprMsg (p : Nat) : String := "expected expression at pos " ++ toString p

def unexpectedTokenMsg (p : Nat) : String := "unexpected token at pos " ++ toString p

def expectedClosingMsg (p : Nat) : String := "expected closing bracket at pos " ++ toString p

def expectedTernDelimMsg (p : Nat) : String := "expected ternary delimiter at pos " ++ toString p

def outOfFuelMsg : String := "expression too deeply nested"

/-- Modelled from the spec (§4.A lexing): whitespace is skipped, multi-character
operators are recognized before their single-character prefixes, numeric
literals must fit in u32, the identifier `n` is the variable, any other
alphabetic run or unknown byte is an error.  Positions are zero-based
offsets into the input.  The first argument is fuel making the recursion
structural (each step consumes at least one character, so fuel exceeding
the input length never runs out). -/
def lexChars : Nat → List Char → Nat → Except String Toks
  | 0, _, _ => .error outOfFuelMsg
  | _ + 1, [], _ => .ok []
  | f + 1, c :: cs, p =>
    if c = ' ' ∨ c = '\t' ∨ c = '\n' then lexChars f cs (p + 1)
    else if c = '%' then (lexChars f cs (p + 1)).map (fun ts => (Tok.tMod, p) :: ts)
    else if c = '(' then (lexChars f cs (p + 1)).map (fun ts => (Tok.tBrOpen, p) :: ts)
    else if c = ')' then (lexChars f cs (p + 1)).map (fun ts => (Tok.tBrClose, p) :: ts)
    else if c = '?' then (lexChars f cs (p + 1)).map (fun ts => (Tok.tQ, p) :: ts)
    else if c = ':' then (lexChars f cs (p + 1)).map (fun ts => (Tok.tColon, p) :: ts)
    else if c = '=' then
      match cs with
      | '=' :: cs2 => (lexChars f cs2 (p + 2)).map (fun ts => (Tok.tEq, p) :: ts)
      | _ => .error (unexpectedCharMsg c p)
    else if c = '!' then
      match cs with
      | '=' :: cs2 => (lexChars f cs2 (p + 2)).map (fun ts => (Tok.tNeq, p) :: ts)
      | _ => .error (unexpectedCharMsg c p)
    else if c = '&' then
      match cs with
      | '&' :: cs2 => (lexChars f cs2 (p + 2)).map (fun ts => (Tok.tAnd, p) :: ts)
      | _ => .error (unexpectedCharMsg c p)
    else if c = '|' then
      match cs with
      | '|' :: cs2 => (lexChars f cs2 (p + 2)).map (fun ts => (Tok.tOr, p) :: ts)
      | _ => .error (unexpectedCharMsg c p)
    else if c = '>' then
      match cs with
      | '=' :: cs2 => (lexChars f cs2 (p + 2)).map (fun ts => (Tok.tGe, p) :: ts)
      | cs3 => (lexChars f cs3 (p + 1)).map (fun ts => (Tok.tGt, p) :: ts)
    else if c = '<' then
      match cs with
      | '=' :: cs2 => (lexChars f cs2 (p + 2)).map (fun ts => (Tok.tLe, p) :: ts)
      | cs3 => (lexChars f cs3 (p + 1)).map (fun ts => (Tok.tLt, p) :: ts)
    else if isDigitB c then
      let ds := cs.takeWhile isDigitB
      let v := digitsToNat (c :: ds)
      if v ≤ u32max then
        (lexChars f (cs.dropWhile isDigitB) (p + 1 + ds.length)).map
          (fun ts => (Tok.tLit v, p) :: ts)
      else .error (invalidNumberMsg (String.mk (c :: ds)) p)
    else if c.isAlpha then
      if (c :: cs).takeWhile Char.isAlpha = ['n'] then
        (lexChars f cs (p + 1)).map (fun ts => (Tok.tVar, p) :: ts)
      else .error (unexpectedCharMsg c p)
    else .error (unexpectedCharMsg c p)

/-! ### Parser

Modelled from the spec (§4.A grammar): recursive descent with precedence
levels `ternary / or / and / eq / cmp / mod / prim`.  `&&`, `||` and `?:`
are grouped right-associated in the AST; `==`/`!=`, the comparisons and `%`
are left-associative.  The whole descent is a single function indexed by
the current level (loop levels carry their left accumulator), structurally
recursive on a fuel argument; the top entry point supplies fuel ample for
any token list. -/

/-- Parser level: one constructor per precedence level, with dedicated
accumulator-carrying constructors for the left-associative operator loops. -/
inductive PLevel where
  | prim | mod | modL (a : PlfNode) | cmp | cmpL (a : PlfNode)
  | eq | eqL (a : PlfNode) | and | or | tern
deriving Repr

/-- One recursive-descent parser step at the given level.  Returns the parsed
node together with the unconsumed tokens, or a positional diagnostic. -/
def pRun : Nat → PLevel → Toks → Nat → Except String (PlfNode × Toks)
  | 0, _, _, _ => .error outOfFuelMsg
  | f + 1, lvl, ts, eof =>
    match lvl with
    | .prim =>
      match ts with
      | (Tok.tVar, _) :: r => .ok (PlfNode.var, r)
      | (Tok.tLit v, _) :: r => .ok (PlfNode.lit v, r)
      | (Tok.tBrOpen, _) :: r =>
        match pRun f .tern r eof with
        | .error e => .error e
        | .ok (t, (Tok.tBrClose, _) :: r2) => .ok (t, r2)
        | .ok (_, (_, p) :: _) => .error (expectedClosingMsg p)
        | .ok (_, []) => .error (expectedClosingMsg eof)
      | (_, p) :: _ => .error (expectedExprMsg p)
      | [] => .error (expectedExprMsg eof)
    | .mod =>
      match pRun f .prim ts eof with
      | .error e => .error e
      | .ok (a, r) => pRun f (.modL a) r eof
    | .modL a =>
      match ts with
      | (Tok.tMod, _) :: r =>
        match pRun f .prim r eof with
        | .error e => .error e
        | .ok (b, r2) => pRun f (.modL (PlfNode.bin PlfOp.Mod a b)) r2 eof
      | _ => .ok (a, ts)
    | .cmp =>
      match pRun f .mod ts eof with
      | .error e => .error e
      | .ok (a, r) => pRun f (.cmpL a) r eof
    | .cmpL a =>
      match ts with
      | (Tok.tGe, _) :: r =>
        match pRun f .mod r eof with
        | .error e => .error e
        | .ok (b, r2) => pRun f (.cmpL (PlfNode.bin PlfOp.GreaterEq a b)) r2 eof
      | (Tok.tGt, _) :: r =>
        match pRun f .mod r eof with
        | .error e => .error e
        | .ok (b, r2) => pRun f (.cmpL (PlfNode.bin PlfOp.Greater a b)) r2 eof
      | (Tok.tLe, _) :: r =>
        match pRun f .mod r eof with
        | .error e => .error e
        | .ok (b, r2) => pRun f (.cmpL (PlfNode.bin PlfOp.LessEq a b)) r2 eof
      | (Tok.tLt, _) :: r =>
        match pRun f .mod r eof with
        | .error e => .error e
        | .ok (b, r2) => pRun f (.cmpL (PlfNode.bin PlfOp.Less a b)) r2 eof
      | _ => .ok (a, ts)
    | .eq =>
      match pRun f .cmp ts eof with
      | .error e => .error e
      | .ok (a, r) => pRun f (.eqL a) r eof
    | .eqL a =>
      match ts with
      | (Tok.tEq, _) :: r =>
        match pRun f .cmp r eof with
        | .error e => .error e
        | .ok (b, r2) => pRun f (.eqL (PlfNode.bin PlfOp.Eq a b)) r2 eof
      | (Tok.tNeq, _) :: r =>
        match pRun f .cmp r eof with
        | .error e => .error e
        | .ok (b, r2) => pRun f (.eqL (PlfNode.bin PlfOp.NotEq a b)) r2 eof
      | _ => .ok (a, ts)
    | .and =>
      match pRun f .eq ts eof with
      | .error e => .error e
      | .ok (a, (Tok.tAnd, _) :: r) =>
        match pRun f .and r eof with
        | .error e => .error e
        | .ok (b, r2) => .ok (PlfNode.bin PlfOp.And a b, r2)
      | .ok (a, r) => .ok (a, r)
    | .or =>
      match pRun f .and ts eof with
      | .error e => .error e
      | .ok (a, (Tok.tOr, _) :: r) =>
        match pRun f .or r eof with
        | .error e => .error e
        | .ok (b, r2) => .ok (PlfNode.bin PlfOp.Or a b, r2)
      | .ok (a, r) => .ok (a, r)
    | .tern =>
      match pRun f .or ts eof with
      | .error e => .error e
      | .ok (a, (Tok.tQ, _) :: r) =>
        match pRun f .tern r eof with
        | .error e => .error e
        | .ok (b, (Tok.tColon, _) :: r2) =>
          match pRun f .tern r2 eof with
          | .error e => .error e
          | .ok (c, r3) => .ok (PlfNode.ter a b c, r3)
        | .ok (_, (_, p) :: _) => .error (expectedTernDelimMsg p)
        | .ok (_, []) => .error (expectedTernDelimMsg eof)
      | .ok (a, r) => .ok (a, r)

/-- Modelled from the spec (§4.A): parse a plural-rules expression string and
build the AST, or fail with a positional diagnostic.  A token left over
after the top-level expression is `"unexpected token at pos <p>"`. -/
def parse_plural_rules (s : String) : Except String PlfNode :=
  match lexChars (s.data.length + 1) s.data 0 with
  | .error e => .error e
  | .ok ts =>
    match pRun (16 * ts.length + 16) .tern ts s.data.length with
    | .error e => .error e
    | .ok (t, []) => .ok t
    | .ok (_, (_, p) :: _) => .error (unexpectedTokenMsg p)

/-! ### Concrete claims about the parser and evaluator -/

/-- The Russian plural-rules expression from the GNU gettext documentation. -/
def ruExpr : String :=
  "n%10==1 && n%100!=11 ? 0 : n%10>=2 && n%10<=4 && (n%100<10 || n%100>=20) ? 1 : 2"

/-- C1: parsing the Russian plural-rules expression with `parse_plural_rules`
and evaluating the resulting AST with `eval` on each `n` in
`{0,1,2,5,11,21,22,25}` yields exactly the values `{2,0,1,2,2,0,1,2}`,
in that order. -/
theorem c1_russian_plural_values :
    (parse_plural_rules ruExpr).map
        (fun t => ([0, 1, 2, 5, 11, 21, 22, 25].map t.eval)) =
      .ok [2, 0, 1, 2, 2, 0, 1, 2] := by
  rfl

/-- C2: `&&` chains and nested ternaries are grouped right-associated in the
AST built by `parse_plural_rules`, as witnessed by `debug_dump`. -/
theorem c2_right_associated_chains :
    (parse_plural_rules "1 && 2 && 3 && 4").map PlfNode.debug_dump =
        .ok "(1&&(2&&(3&&4)))" ∧
      (parse_plural_rules "n?1?2:3:4").map PlfNode.debug_dump = .ok "(n?(1?2:3):4)" := by
  constructor <;> rfl

/-- C4: a numeric literal is accepted exactly when it fits in u32:
`4294967295` parses (with the expected dump) while `4294967296` fails with
exactly the message `invalid number '4294967296' at pos 5`, position 5 being
the zero-based offset of the start of the literal. -/
theorem c4_u32_literal_bound :
    (parse_plural_rules "n == 4294967295 ? 1 : 0").map PlfNode.debug_dump =
        .ok "((n==4294967295)?1:0)" ∧
      parse_plural_rules "n == 4294967296 ? 1 : 0" =
        .error ("invalid number " ++ sqStr ++ "4294967296" ++ sqStr ++ " at pos 5") := by
  constructor <;> rfl

/-- C6: `PlfNode.eval` is a total pure function (its type in this embedding is
`PlfNode → Nat → Nat`, so evaluation cannot fail); in particular a `Mod`
node whose right operand evaluates to `0` returns `0` rather than dividing
by zero, for every AST and every unsigned 64-bit `n`. -/
theorem c6_eval_total_mod_zero (a b : PlfNode) (n : Nat) (hn : n < 2 ^ 64) :
    (PlfNode.bin PlfOp.Mod a b).eval n =
        (if b.eval n = 0 then 0 else a.eval n % b.eval n) ∧
      (b.eval n = 0 → (PlfNode.bin PlfOp.Mod a b).eval n = 0) := by
  refine ⟨rfl, fun h => ?_⟩
  simp [PlfNode.eval, h]

/-- Witness for C6 at a concrete node and input. -/
theorem c6_eval_total_mod_zero_witness :
    (PlfNode.bin PlfOp.Mod PlfNode.var (PlfNode.lit 0)).eval 7 =
        (if (PlfNode.lit 0).eval 7 = 0 then 0 else PlfNode.var.eval 7 % (PlfNode.lit 0).eval 7) ∧
      ((PlfNode.lit 0).eval 7 = 0 →
        (PlfNode.bin PlfOp.Mod PlfNode.var (PlfNode.lit 0)).eval 7 = 0) :=
  c6_eval_total_mod_zero PlfNode.var (PlfNode.lit 0) 7 (by decide)

/-! ### C10: GNU gettext plural rules versus Transifex plural rules -/

/-- Shorthand for the AST of `n % c`. -/
def nMod (c : Nat) : PlfNode := PlfNode.bin PlfOp.Mod PlfNode.var (PlfNode.lit c)

/-- The GNU Polish plural expression fixed in the test suite. -/
def plGnuStr : String :=
  "(n==1 ? 0 : n%10>=2 && n%10<=4 && (n%100<10 || n%100>=20) ? 1 : 2)"

/-- The Transifex Polish plural expression fixed in the test suite
(the two C++ string literals concatenated). -/
def plTfxStr : String :=
  "(n==1 ? 0 : (n%10>=2 && n%10<=4) && (n%100<12 || n%100>14) ? 1 : n!=1" ++
    "&& (n%10>=0 && n%10<=1) || (n%10>=5 && n%10<=9) || (n%100>=12 && n%100<=14) ? 2 : 3)"

/-- The GNU Russian plural expression fixed in the test suite. -/
def ruGnuStr : String :=
  "(n%10==1 && n%100!=11 ? 0 : n%10>=2 && n%10<=4 && (n%100<10 || n%100>=20) ? 1 : 2)"

/-- The Transifex Russian plural expression fixed in the test suite. -/
def ruTfxStr : String :=
  "(n%10==1 && n%100!=11 ? 0 : n%10>=2 && n%10<=4 && (n%100<12 || n%100>14) ? 1 :" ++
    " n%10==0 || (n%10>=5 && n%10<=9) || (n%100>=11 && n%100<=14)? 2 : 3)"

/-- The GNU Ukrainian plural expression fixed in the test suite. -/
def ukGnuStr : String :=
  "(n%10==1 && n%100!=11 ? 0 : n%10>=2 && n%10<=4 && (n%100<10 || n%100>=20) ? 1 : 2)"

/-- The Transifex Ukrainian plural expression fixed in the test suite. -/
def ukTfxStr : String :=
  "(n % 1 == 0 && n % 10 == 1 && n % 100 != " ++
    "11 ? 0 : n % 1 == 0 && n % 10 >= 2 && n % 10 <= 4 && (n % 100 < 12 || n % " ++
    "100 > 14) ? 1 : n % 1 == 0 && (n % 10 ==0 || (n % 10 >=5 && n % 10 <=9) || " ++
    "(n % 100 >=11 && n % 100 <=14 )) ? 2: 3)"

/-- AST of the GNU Polish rule (checked against the parser below). -/
def plGnuAst : PlfNode :=
  .ter (.bin .Eq .var (.lit 1)) (.lit 0)
    (.ter (.bin .And (.bin .GreaterEq (nMod 10) (.lit 2))
        (.bin .And (.bin .LessEq (nMod 10) (.lit 4))
          (.bin .Or (.bin .Less (nMod 100) (.lit 10)) (.bin .GreaterEq (nMod 100) (.lit 20)))))
      (.lit 1) (.lit 2))

/-- AST of the Transifex Polish rule. -/
def plTfxAst : PlfNode :=
  .ter (.bin .Eq .var (.lit 1)) (.lit 0)
    (.ter (.bin .And
        (.bin .And (.bin .GreaterEq (nMod 10) (.lit 2)) (.bin .LessEq (nMod 10) (.lit 4)))
        (.bin .Or (.bin .Less (nMod 100) (.lit 12)) (.bin .Greater (nMod 100) (.lit 14))))
      (.lit 1)
      (.ter (.bin .Or
          (.bin .And (.bin .NotEq .var (.lit 1))
            (.bin .And (.bin .GreaterEq (nMod 10) (.lit 0)) (.bin .LessEq (nMod 10) (.lit 1))))
          (.bin .Or
            (.bin .And (.bin .GreaterEq (nMod 10) (.lit 5)) (.bin .LessEq (nMod 10) (.lit 9)))
            (.bin .And (.bin .GreaterEq (nMod 100) (.lit 12)) (.bin .LessEq (nMod 100) (.lit 14)))))
        (.lit 2) (.lit 3)))

/-- AST of the GNU Russian (and Ukrainian) rule. -/
def ruGnuAst : PlfNode :=
  .ter (.bin .And (.bin .Eq (nMod 10) (.lit 1)) (.bin .NotEq (nMod 100) (.lit 11))) (.lit 0)
    (.ter (.bin .And (.bin .GreaterEq (nMod 10) (.lit 2))
        (.bin .And (.bin .LessEq (nMod 10) (.lit 4))
          (.bin .Or (.bin .Less (nMod 100) (.lit 10)) (.bin .GreaterEq (nMod 100) (.lit 20)))))
      (.lit 1) (.lit 2))

/-- AST of the Transifex Russian rule. -/
def ruTfxAst : PlfNode :=
  .ter (.bin .And (.bin .Eq (nMod 10) (.lit 1)) (.bin .NotEq (nMod 100) (.lit 11))) (.lit 0)
    (.ter (.bin .And (.bin .GreaterEq (nMod 10) (.lit 2))
        (.bin .And (.bin .LessEq (nMod 10) (.lit 4))
          (.bin .Or (.bin .Less (nMod 100) (.lit 12)) (.bin .Greater (nMod 100) (.lit 14)))))
      (.lit 1)
      (.ter (.bin .Or (.bin .Eq (nMod 10) (.lit 0))
          (.bin .Or
            (.bin .And (.bin .GreaterEq (nMod 10) (.lit 5)) (.bin .LessEq (nMod 10) (.lit 9)))
            (.bin .And (.bin .GreaterEq (nMod 100) (.lit 11)) (.bin .LessEq (nMod 100) (.lit 14)))))
        (.lit 2) (.lit 3)))

/-- AST of the Transifex Ukrainian rule. -/
def ukTfxAst : PlfNode :=
  .ter (.bin .And (.bin .Eq (nMod 1) (.lit 0))
      (.bin .And (.bin .Eq (nMod 10) (.lit 1)) (.bin .NotEq (nMod 100) (.lit 11))))
    (.lit 0)
    (.ter (.bin .And (.bin .Eq (nMod 1) (.lit 0))
        (.bin .And (.bin .GreaterEq (nMod 10) (.lit 2))
          (.bin .And (.bin .LessEq (nMod 10) (.lit 4))
            (.bin .Or (.bin .Less (nMod 100) (.lit 12)) (.bin .Greater (nMod 100) (.lit 14))))))
      (.lit 1)
      (.ter (.bin .And (.bin .Eq (nMod 1) (.lit 0))
          (.bin .Or (.bin .Eq (nMod 10) (.lit 0))
            (.bin .Or
              (.bin .And (.bin .GreaterEq (nMod 10) (.lit 5)) (.bin .LessEq (nMod 10) (.lit 9)))
              (.bin .And (.bin .GreaterEq (nMod 100) (.lit 11))
                (.bin .LessEq (nMod 100) (.lit 14))))))
        (.lit 2) (.lit 3)))

/-- Comparison operators of the plural-rules grammar. -/
def isCmpOp : PlfOp → Bool
  | .Eq | .NotEq | .GreaterEq | .Greater | .LessEq | .Less => true
  | _ => false

/-- An atom whose value at `n` (for `n ≥ 2`) depends only on `n % 100`:
either a comparison of `n % c` (with `c` a nonzero divisor of `100`)
against a literal, or a comparison of `n` itself against a literal `≤ 1`. -/
def atomOk : PlfNode → Bool
  | .bin op (.bin .Mod .var (.lit c)) (.lit _) => isCmpOp op && (100 % c == 0) && !(c == 0)
  | .bin op .var (.lit k) => isCmpOp op && decide (k ≤ 1)
  | _ => false

/-- Expressions built from literals and `atomOk` atoms by `&&`, `||` and `?:`;
their value at `n ≥ 2` depends only on `n % 100`. -/
def per100 : PlfNode → Bool
  | .lit _ => true
  | .ter a b c => per100 a && per100 b && per100 c
  | .bin .And a b => per100 a && per100 b
  | .bin .Or a b => per100 a && per100 b
  | t => atomOk t

theorem band_true {a b : Bool} (h : (a && b) = true) : a = true ∧ b = true := by
  simp only [Bool.and_eq_true] at h
  exact h

theorem eval_bin_congr (op : PlfOp) (a b : PlfNode) {n m : Nat}
    (ha : a.eval n = a.eval m) (hb : b.eval n = b.eval m) :
    (PlfNode.bin op a b).eval n = (PlfNode.bin op a b).eval m := by
  simp only [PlfNode.eval]
  rw [ha, hb]

theorem atom_eval (t : PlfNode) (h : atomOk t = true) (n m : Nat)
    (hn : 2 ≤ n) (hm : 2 ≤ m) (hmod : n % 100 = m % 100) : t.eval n = t.eval m := by
  unfold atomOk at h
  split at h
  · rename_i op c w
    have hc : (100 % c == 0) = true ∧ (c == 0) = false := by
      rcases band_true h with ⟨h1, h2⟩
      rcases band_true h1 with ⟨_, h3⟩
      exact ⟨h3, by simpa using h2⟩
    have hdvd : c ∣ 100 := Nat.dvd_of_mod_eq_zero (by simpa using hc.1)
    have hc0 : c ≠ 0 := by simpa using hc.2
    refine eval_bin_congr _ _ _ ?_ rfl
    simp only [PlfNode.eval]
    rw [if_neg hc0, if_neg hc0]
    rw [← Nat.mod_mod_of_dvd n hdvd, ← Nat.mod_mod_of_dvd m hdvd, hmod]
  · rename_i op k
    rcases band_true h with ⟨hop, hk⟩
    have hk1 : k ≤ 1 := of_decide_eq_true hk
    cases op with
    | Mod => exact absurd hop (by decide)
    | And => exact absurd hop (by decide)
    | Or => exact absurd hop (by decide)
    | Eq => simp only [PlfNode.eval]; split_ifs <;> omega
    | NotEq => simp only [PlfNode.eval]; split_ifs <;> omega
    | GreaterEq => simp only [PlfNode.eval]; split_ifs <;> omega
    | Greater => simp only [PlfNode.eval]; split_ifs <;> omega
    | LessEq => simp only [PlfNode.eval]; split_ifs <;> omega
    | Less => simp only [PlfNode.eval]; split_ifs <;> omega
  · exact absurd h (by simp)

theorem per100_eval (t : PlfNode) : per100 t = true →
    ∀ n m : Nat, 2 ≤ n → 2 ≤ m → n % 100 = m % 100 → t.eval n = t.eval m := by
  induction t with
  | lit v => intro _ n m _ _ _; rfl
  | var => intro h; exact absurd h (by simp [per100, atomOk])
  | ter a b c iha ihb ihc =>
    intro h n m hn hm hmod
    have h3 : per100 a = true ∧ per100 b = true ∧ per100 c = true := by
      have : (per100 a && per100 b && per100 c) = true := h
      simp only [Bool.and_eq_true] at this
      exact ⟨this.1.1, this.1.2, this.2⟩
    simp only [PlfNode.eval]
    rw [iha h3.1 n m hn hm hmod, ihb h3.2.1 n m hn hm hmod, ihc h3.2.2 n m hn hm hmod]
  | bin op a b iha ihb =>
    intro h n m hn hm hmod
    cases op with
    | And =>
      have h2 : (per100 a && per100 b) = true := h
      rcases band_true h2 with ⟨h2a, h2b⟩
      exact eval_bin_congr _ _ _ (iha h2a n m hn hm hmod) (ihb h2b n m hn hm hmod)
    | Or =>
      have h2 : (per100 a && per100 b) = true := h
      rcases band_true h2 with ⟨h2a, h2b⟩
      exact eval_bin_congr _ _ _ (iha h2a n m hn hm hmod) (ihb h2b n m hn hm hmod)
    | Mod => exact atom_eval _ h n m hn hm hmod
    | Eq => exact atom_eval _ h n m hn hm hmod
    | NotEq => exact atom_eval _ h n m hn hm hmod
    | GreaterEq => exact atom_eval _ h n m hn hm hmod
    | Greater => exact atom_eval _ h n m hn hm hmod
    | LessEq => exact atom_eval _ h n m hn hm hmod
    | Less => exact atom_eval _ h n m hn hm hmod

/-- Two `per100` expressions agreeing at `0`, `1` and on one full period
`[100, 200)` agree everywhere, and the second avoids the value `3`. -/
theorem pair_all (g t : PlfNode) (hg : per100 g = true) (ht : per100 t = true)
    (h0 : g.eval 0 = t.eval 0 ∧ t.eval 0 ≠ 3) (h1 : g.eval 1 = t.eval 1 ∧ t.eval 1 ≠ 3)
    (hk : ∀ k, k < 100 → g.eval (k + 100) = t.eval (k + 100) ∧ t.eval (k + 100) ≠ 3) :
    ∀ n : Nat, g.eval n = t.eval n ∧ t.eval n ≠ 3 := by
  intro n
  match n with
  | 0 => exact h0
  | 1 => exact h1
  | (k + 2) =>
    have h2 : 2 ≤ k + 2 := by omega
    have hside : 2 ≤ (k + 2) % 100 + 100 := by omega
    have hmod : (k + 2) % 100 = ((k + 2) % 100 + 100) % 100 := by omega
    have eg := per100_eval g hg (k + 2) ((k + 2) % 100 + 100) h2 hside hmod
    have et := per100_eval t ht (k + 2) ((k + 2) % 100 + 100) h2 hside hmod
    have hk2 := hk ((k + 2) % 100) (by omega)
    exact ⟨by rw [eg, et]; exact hk2.1, by rw [et]; exact hk2.2⟩

/-- C10: for the Polish, Russian and Ukrainian language pairs fixed in the
test suite, the GNU gettext plural expression and the Transifex plural
expression, both parsed with `parse_plural_rules`, evaluate to equal values
for every `n`; in particular the extra fourth Transifex plural form
(index `3`) is unreachable on integer inputs. -/
theorem c10_gnu_rules_equal_transifex_rules :
    (parse_plural_rules plGnuStr = .ok plGnuAst ∧ parse_plural_rules plTfxStr = .ok plTfxAst ∧
        ∀ n : Nat, plGnuAst.eval n = plTfxAst.eval n ∧ plTfxAst.eval n ≠ 3) ∧
      (parse_plural_rules ruGnuStr = .ok ruGnuAst ∧ parse_plural_rules ruTfxStr = .ok ruTfxAst ∧
        ∀ n : Nat, ruGnuAst.eval n = ruTfxAst.eval n ∧ ruTfxAst.eval n ≠ 3) ∧
      (parse_plural_rules ukGnuStr = .ok ruGnuAst ∧ parse_plural_rules ukTfxStr = .ok ukTfxAst ∧
        ∀ n : Nat, ruGnuAst.eval n = ukTfxAst.eval n ∧ ukTfxAst.eval n ≠ 3) := by
  refine ⟨⟨by rfl, by rfl, pair_all _ _ (by rfl) (by rfl) (by decide) (by decide) (by decide)⟩,
    ⟨by rfl, by rfl, pair_all _ _ (by rfl) (by rfl) (by decide) (by decide) (by decide)⟩,
    ⟨by rfl, by rfl, pair_all _ _ (by rfl) (by rfl) (by decide) (by decide) (by decide)⟩⟩

/-! ### MO binary reader and catalogue loader

Modelled from the spec (§4.C, §4.D, §6).  A file is its byte buffer,
represented as a `List Nat` of byte values. -/

/-- Byte at an address (reads as `u8`; unsafe accessor over a validated
address in the reference). -/
def byteAt (buf : List Nat) (addr : Nat) : Nat := buf.getD addr 0

/-- Modelled from the spec (§4.C, §6): read a 32-bit value at `addr` in the
given endianness (`little = true` for little-endian). -/
def u32At (buf : List Nat) (little : Bool) (addr : Nat) : Nat :=
  if little then
    byteAt buf addr + 256 * byteAt buf (addr + 1) + 65536 * byteAt buf (addr + 2) +
      16777216 * byteAt buf (addr + 3)
  else
    byteAt buf (addr + 3) + 256 * byteAt buf (addr + 2) + 65536 * byteAt buf (addr + 1) +
      16777216 * byteAt buf addr

/-- Modelled from the spec (§4.C): bytes from `addr` up to (not including)
the next NUL byte. -/
def cstrAt (buf : List Nat) (addr : Nat) : List Nat :=
  (buf.drop addr).takeWhile (fun b => b != 0)

/-- The byte segment described by a `(length, address)` string descriptor
(excludes the trailing NUL terminator). -/
def segAt (buf : List Nat) (addr len : Nat) : List Nat := (buf.drop addr).take len

/-- Lowercase hexadecimal digit characters of a positive natural number,
most significant first; the first argument is fuel. -/
def hexCharsAux : Nat → Nat → List Char
  | 0, _ => []
  | f + 1, v =>
    if v = 0 then []
    else
      hexCharsAux f (v / 16) ++
        [Char.ofNat (if v % 16 < 10 then 48 + v % 16 else 87 + v % 16)]

/-- Lowercase hexadecimal rendering of a natural number (no `0x` prefix). -/
def toHexStr (v : Nat) : String := if v = 0 then "0" else String.mk (hexCharsAux v v)

/-- The exact loader diagnostic for a string descriptor extending beyond the
end of the file (spec §4.D step 5), all values in lowercase hexadecimal. -/
def eofViolationMsg (entryAddr len adr size : Nat) : String :=
  "string_info at 0x" ++ toHexStr entryAddr ++ ": extends beyond EOF (len:0x" ++
    toHexStr len ++ " addr:0x" ++ toHexStr adr ++ " file size:0x" ++ toHexStr size ++ ")"

/-- The exact loader diagnostic for a string missing its NUL terminator
(spec §4.D step 5). -/
def missingNulMsg (entryAddr : Nat) : String :=
  "string_info at 0x" ++ toHexStr entryAddr ++ ": missing null terminator"

/-- Modelled from the spec (§4.C/§4.D step 5): read the `(length, address)`
descriptor stored at table address `addr` and validate it — the string
(plus its NUL terminator) must lie inside the buffer and the byte at
`address + length` must be NUL. -/
def string_info_at (buf : List Nat) (little : Bool) (addr : Nat) :
    Except String (Nat × Nat) :=
  let len := u32At buf little addr
  let adr := u32At buf little (addr + 4)
  if adr + len + 1 ≤ buf.length then
    if byteAt buf (adr + len) = 0 then .ok (len, adr)
    else .error (missingNulMsg addr)
  else .error (eofViolationMsg addr len adr buf.length)

/-- Scan `cnt` table entries starting at index `i` (entry `k` lives at
`offs + 8 * k`), failing at the first invalid descriptor. -/
def checkTable (buf : List Nat) (little : Bool) (offs : Nat) : Nat → Nat → Except String Unit
  | _, 0 => .ok ()
  | i, cnt + 1 =>
    match string_info_at buf little (offs + 8 * i) with
    | .error e => .error e
    | .ok _ => checkTable buf little offs (i + 1) cnt

/-- ASCII bytes of a string (metadata header names are ASCII). -/
def bytesOfAscii (s : String) : List Nat := s.data.map Char.toNat

/-- ASCII lowercasing of a byte. -/
def toLowerByte (b : Nat) : Nat := if 65 ≤ b ∧ b ≤ 90 then b + 32 else b

/-- Find the value of the metadata header with the given name prefix
(e.g. `"Content-Type:"`) among the `\n`-separated metadata lines. -/
def findHeader (lines : List (List Nat)) (name : List Nat) : Option (List Nat) :=
  (lines.find? (fun l => l.take name.length == name)).map (fun l => l.drop name.length)

/-- Modelled from the spec (§4.D step 7): the `Content-Type` header value
must end with `charset=UTF-8` (`charset=` matched case-insensitively,
`UTF-8` exactly). -/
def charsetOk (v : List Nat) : Bool :=
  let t := v.drop (v.length - 13)
  t.length == 13 && (t.take 8).map toLowerByte == bytesOfAscii "charset=" &&
    t.drop 8 == bytesOfAscii "UTF-8"

def wrongCharsetMsg : String := "unexpected value in Content-Type header (wrong charset?)"

/-- Modelled from the spec (§4.D step 7): charset check over the parsed
metadata lines. -/
def check_encoding (lines : List (List Nat)) : Except String Unit :=
  match findHeader lines (bytesOfAscii "Content-Type:") with
  | none => .error wrongCharsetMsg
  | some v => if charsetOk v then .ok () else .error wrongCharsetMsg

def isDigitByte (b : Nat) : Bool := 48 ≤ b && b ≤ 57

/-- Value of a run of decimal digit bytes, most significant first. -/
def bytesVal (l : List Nat) : Nat := l.foldl (fun a b => 10 * a + (b - 48)) 0

def skipSpaceBytes (l : List Nat) : List Nat := l.dropWhile (fun b => b == 32)

/-- Strip an expected literal byte prefix. -/
def stripLit (lit l : List Nat) : Option (List Nat) :=
  if l.take lit.length == lit then some (l.drop lit.length) else none

def badPlfHeaderMsg : String := "invalid Plural-Forms header"

/-- Modelled from the spec (§4.D step 8): parse a `Plural-Forms` header value
of the form `nplurals=<N>; plural=<EXPR>;` (trailing semicolon optional,
whitespace around `=` permitted); `<EXPR>` is parsed with
`parse_plural_rules`; `N < 1` is rejected with `"invalid nplurals"`. -/
def parse_plf_header (v : List Nat) : Except String (Nat × PlfNode) :=
  match stripLit (bytesOfAscii "nplurals") (skipSpaceBytes v) with
  | none => .error badPlfHeaderMsg
  | some l1 =>
    match stripLit [61] (skipSpaceBytes l1) with
    | none => .error badPlfHeaderMsg
    | some l3 =>
      let l4 := skipSpaceBytes l3
      let ds := l4.takeWhile isDigitByte
      if ds = [] then .error "invalid nplurals"
      else
        let nval := bytesVal ds
        match stripLit [59] (skipSpaceBytes (l4.dropWhile isDigitByte)) with
        | none => .error badPlfHeaderMsg
        | some l6 =>
          match stripLit (bytesOfAscii "plural") (skipSpaceBytes l6) with
          | none => .error badPlfHeaderMsg
          | some l8 =>
            match stripLit [61] (skipSpaceBytes l8) with
            | none => .error badPlfHeaderMsg
            | some l10 =>
              let r1 := l10.reverse.dropWhile (fun b => b == 32 || b == 9 || b == 10 || b == 13)
              let r2 := match r1 with
                | 59 :: rest => rest
                | other => other
              if nval < 1 then .error "invalid nplurals"
              else
                match parse_plural_rules (String.mk (r2.reverse.map Char.ofNat)) with
                | .error e => .error e
                | .ok ast => .ok (nval, ast)

/-- Modelled from the spec (§4.D step 8): extract the plural-forms
declaration from the metadata lines, defaulting to one plural form with
rule `0` when the `Plural-Forms` header is absent. -/
def plf_of_headers (lines : List (List Nat)) : Except String (Nat × PlfNode) :=
  match findHeader lines (bytesOfAscii "Plural-Forms:") with
  | none => .ok (1, PlfNode.lit 0)
  | some v => parse_plf_header v

/-- Modelled from the spec (§4.D step 9): every entry whose original string
contains an internal NUL (a plural entry) must carry exactly
`nplurals` NUL-separated forms in its translation. -/
def checkPlurals (buf : List Nat) (little : Bool) (oO oT npl : Nat) :
    Nat → Nat → Except String Unit
  | _, 0 => .ok ()
  | i, cnt + 1 =>
    let oseg := segAt buf (u32At buf little (oO + 8 * i + 4)) (u32At buf little (oO + 8 * i))
    let tseg := segAt buf (u32At buf little (oT + 8 * i + 4)) (u32At buf little (oT + 8 * i))
    if oseg.contains 0 then
      if tseg.count 0 = npl - 1 then checkPlurals buf little oO oT npl (i + 1) cnt
      else .error "invalid number of plural forms in string"
    else checkPlurals buf little oO oT npl (i + 1) cnt

/-- Translation catalogue: one loaded MO file (spec §3).  Fields mirror the
members of `trans_catalogue` in the header. -/
structure trans_catalogue where
  is_little_endian : Bool
  buf : List Nat
  num_plural_forms : Nat
  plf_rules : PlfNode
  number_of_strings : Nat
  offs_orig_table : Nat
  offs_trans_table : Nat
deriving DecidableEq, Repr

instance : Inhabited trans_catalogue :=
  ⟨⟨true, [], 0, PlfNode.lit 0, 0, 0, 0⟩⟩

namespace trans_catalogue

def buf_size (c : trans_catalogue) : Nat := c.buf.length

def get_u8_unsafe (c : trans_catalogue) (addr : Nat) : Nat := byteAt c.buf addr

def get_u32_unsafe (c : trans_catalogue) (addr : Nat) : Nat :=
  u32At c.buf c.is_little_endian addr

def addr_to_cstr (c : trans_catalogue) (addr : Nat) : List Nat := cstrAt c.buf addr

/-- Modelled from the spec (§4.E): the original (msgid) bytes of entry `n`;
for a plural entry only the singular (up to the internal NUL) is returned. -/
def get_nth_orig_string (c : trans_catalogue) (n : Nat) : List Nat :=
  c.addr_to_cstr (c.get_u32_unsafe (c.offs_orig_table + 8 * n + 4))

/-- Modelled from the spec (§4.E): the translation bytes of entry `n`
(first NUL-separated segment). -/
def get_nth_translation (c : trans_catalogue) (n : Nat) : List Nat :=
  c.addr_to_cstr (c.get_u32_unsafe (c.offs_trans_table + 8 * n + 4))

/-- Modelled from the spec (§4.E): evaluate the catalogue plural rule on
`num` to obtain a form index (clamped to `[0, num_plural_forms)`, and
falling back to the first segment if out of range) and return that
NUL-separated segment of the translation of entry `n`. -/
def get_nth_pl_translation (c : trans_catalogue) (n num : Nat) : List Nat :=
  let k0 := c.plf_rules.eval num
  let k := if k0 < c.num_plural_forms then k0 else 0
  let len := c.get_u32_unsafe (c.offs_trans_table + 8 * n)
  let adr := c.get_u32_unsafe (c.offs_trans_table + 8 * n + 4)
  let segs := (segAt c.buf adr len).splitOn 0
  segs.getD k (segs.headD [])

end trans_catalogue

/-- Modelled from the spec (§4.D steps 3-9): validation and extraction once
the magic number has fixed the endianness. -/
def load_body (buf : List Nat) (little : Bool) : Except String trans_catalogue :=
  if u32At buf little 4 ≥ 65536 then .error "unsupported MO version"
  else
    if u32At buf little 12 + 8 * u32At buf little 8 ≤ buf.length ∧
        u32At buf little 16 + 8 * u32At buf little 8 ≤ buf.length then
      match checkTable buf little (u32At buf little 12) 0 (u32At buf little 8) with
      | .error e => .error e
      | .ok _ =>
        match checkTable buf little (u32At buf little 16) 0 (u32At buf little 8) with
        | .error e => .error e
        | .ok _ =>
          if u32At buf little 8 = 0 then .error "missing metadata"
          else if cstrAt buf (u32At buf little (u32At buf little 12 + 4)) ≠ [] then
            .error "missing metadata"
          else
            match check_encoding ((segAt buf (u32At buf little (u32At buf little 16 + 4))
                (u32At buf little (u32At buf little 16))).splitOn 10) with
            | .error e => .error e
            | .ok _ =>
              match plf_of_headers ((segAt buf (u32At buf little (u32At buf little 16 + 4))
                  (u32At buf little (u32At buf little 16))).splitOn 10) with
              | .error e => .error e
              | .ok (npl, rules) =>
                match checkPlurals buf little (u32At buf little 12) (u32At buf little 16)
                    npl 0 (u32At buf little 8) with
                | .error e => .error e
                | .ok _ =>
                  .ok { is_little_endian := little, buf := buf,
                        num_plural_forms := npl, plf_rules := rules,
                        number_of_strings := u32At buf little 8,
                        offs_orig_table := u32At buf little 12,
                        offs_trans_table := u32At buf little 16 }
    else .error "unexpected EOF"

/-- Modelled from the spec (§4.D): load a translation catalogue from the
contents of an MO file, validating magic, version, table bounds, string
descriptors and terminators, metadata presence, charset and plural-forms
declaration.  The first fault aborts with its diagnostic; no catalogue is
returned. -/
def load_from_file (buf : List Nat) : Except String trans_catalogue :=
  if buf.length < 20 then .error "not a MO file"
  else if u32At buf true 0 = 0x950412DE then load_body buf true
  else if u32At buf true 0 = 0xDE120495 then load_body buf false
  else .error "not a MO file"

/-! ### Translation library

Modelled from the spec (§4.F): a merged, sorted descriptor index over an
ordered list of catalogues, with byte-wise msgid comparison and
`(catalogue_index, entry_index)` tie-breaking. -/

/-- Strict byte-wise (lexicographic) order on byte strings. -/
def bytesLt : List Nat → List Nat → Bool
  | [], [] => false
  | [], _ :: _ => true
  | _ :: _, [] => false
  | a :: as, b :: bs => if a < b then true else if b < a then false else bytesLt as bs

/-- Sort key of an index entry: the msgid bytes together with the
`(catalogue_index, entry_index)` descriptor used to break ties. -/
abbrev IdxEntry := List Nat × Nat × Nat

/-- Modelled from the spec (§4.F): descriptor order — byte-wise comparison of
the singular msgid, ties broken by catalogue index then entry index. -/
def idxLeB (x y : IdxEntry) : Bool :=
  if bytesLt x.1 y.1 then true
  else if bytesLt y.1 x.1 then false
  else if x.2.1 < y.2.1 then true
  else if y.2.1 < x.2.1 then false
  else x.2.2 ≤ y.2.2

def idxLe (x y : IdxEntry) : Prop := idxLeB x y = true

instance : DecidableRel idxLe := fun x y => by unfold idxLe; infer_instance

/-- The msgid key of descriptor `d` — the singular original string of the
referenced entry. -/
def origKeyOf (cats : List trans_catalogue) (d : Nat × Nat) : List Nat :=
  (cats.getD d.1 default).get_nth_orig_string d.2

/-- Modelled from the spec (§4.F): one descriptor per catalogue and per entry
index greater than `0` (the metadata entry is skipped), in catalogue order
then entry order. -/
def all_descriptors (cats : List trans_catalogue) : List (Nat × Nat) :=
  (List.range cats.length).flatMap (fun i =>
    ((List.range (cats.getD i default).number_of_strings).filter (fun n => 0 < n)).map
      (fun n => (i, n)))

/-- Modelled from the spec (§4.F): the sorted descriptor table. -/
def build_string_table (cats : List trans_catalogue) : List (Nat × Nat) :=
  (List.insertionSort idxLe
      ((all_descriptors cats).map (fun d => (origKeyOf cats d, d)))).map Prod.snd

/-- Translation library: collection of catalogues merged into a single pool
(spec §3, §4.F). -/
structure trans_library where
  catalogues : List trans_catalogue
  string_vec : List (Nat × Nat)

namespace trans_library

/-- Modelled from the spec (§4.F): build a library from an ordered catalogue
list. -/
def create (cats : List trans_catalogue) : trans_library :=
  { catalogues := cats, string_vec := build_string_table cats }

/-- Modelled from the spec (§4.F lookup): the first descriptor whose msgid
equals `id`, if any. -/
def find_in_table (lib : trans_library) (id : List Nat) : Option (Nat × Nat) :=
  lib.string_vec.find? (fun d => origKeyOf lib.catalogues d == id)

def lookup_string_in_table (lib : trans_library) (id : List Nat) : Option (List Nat) :=
  (lib.find_in_table id).map
    (fun d => (lib.catalogues.getD d.1 default).get_nth_translation d.2)

def lookup_pl_string_in_table (lib : trans_library) (id : List Nat) (n : Nat) :
    Option (List Nat) :=
  (lib.find_in_table id).map
    (fun d => (lib.catalogues.getD d.1 default).get_nth_pl_translation d.2 n)

/-- Modelled from the spec (§4.F): `get` returns the winning translation, or
the msgid itself on a miss. -/
def get (lib : trans_library) (msgid : List Nat) : List Nat :=
  (lib.lookup_string_in_table msgid).getD msgid

/-- Modelled from the spec (§4.F): plural query; on a miss returns `msgid`
when `n = 1` and `msgid_pl` otherwise. -/
def get_pl (lib : trans_library) (msgid msgid_pl : List Nat) (n : Nat) : List Nat :=
  (lib.lookup_pl_string_in_table msgid n).getD (if n = 1 then msgid else msgid_pl)

/-- Context-qualified key: `ctx`, byte `0x04`, `msgid` (spec §4.F). -/
def ctxKey (ctx msgid : List Nat) : List Nat := ctx ++ 4 :: msgid

/-- Modelled from the spec (§4.F): context-qualified lookup; returns the bare
`msgid` on a miss. -/
def get_ctx (lib : trans_library) (ctx msgid : List Nat) : List Nat :=
  (lib.lookup_string_in_table (ctxKey ctx msgid)).getD msgid

/-- Modelled from the spec (§4.F): context-qualified plural lookup. -/
def get_ctx_pl (lib : trans_library) (ctx msgid msgid_pl : List Nat) (n : Nat) : List Nat :=
  (lib.lookup_pl_string_in_table (ctxKey ctx msgid) n).getD (if n = 1 then msgid else msgid_pl)

end trans_library

/-! ### C5: loader failure on a string descriptor extending beyond EOF -/

/-- Both checks of spec §4.D step 5 pass for the descriptor stored at table
address `a`: the string plus terminator lies inside the buffer and the
terminator byte is NUL. -/
def entryOkAt (buf : List Nat) (little : Bool) (a : Nat) : Prop :=
  u32At buf little (a + 4) + u32At buf little a + 1 ≤ buf.length ∧
    byteAt buf (u32At buf little (a + 4) + u32At buf little a) = 0

instance (buf : List Nat) (little : Bool) (a : Nat) : Decidable (entryOkAt buf little a) := by
  unfold entryOkAt; infer_instance

/-- The descriptor stored at table address `a` violates
`address + length + 1 ≤ buf.size` (spec §4.D step 5). -/
def eofViolAt (buf : List Nat) (little : Bool) (a : Nat) : Prop :=
  buf.length < u32At buf little (a + 4) + u32At buf little a + 1

instance (buf : List Nat) (little : Bool) (a : Nat) : Decidable (eofViolAt buf little a) := by
  unfold eofViolAt; infer_instance

/-- Address of the `j`-th descriptor in loader scan order: the originals
table first, then the translations table. -/
def scanAddr (buf : List Nat) (little : Bool) (j : Nat) : Nat :=
  if j < u32At buf little 8 then u32At buf little 12 + 8 * j
  else u32At buf little 16 + 8 * (j - u32At buf little 8)

theorem string_info_at_ok {buf : List Nat} {little : Bool} {a : Nat}
    (h : entryOkAt buf little a) :
    string_info_at buf little a = .ok (u32At buf little a, u32At buf little (a + 4)) := by
  unfold string_info_at
  rw [if_pos h.1, if_pos h.2]

theorem string_info_at_eof {buf : List Nat} {little : Bool} {a : Nat}
    (h : eofViolAt buf little a) :
    string_info_at buf little a =
      .error (eofViolationMsg a (u32At buf little a) (u32At buf little (a + 4)) buf.length) := by
  unfold string_info_at
  rw [if_neg (by exact Nat.not_le_of_lt h)]

theorem checkTable_ok (buf : List Nat) (little : Bool) (offs : Nat) :
    ∀ cnt i, (∀ k, i ≤ k → k < i + cnt → entryOkAt buf little (offs + 8 * k)) →
      checkTable buf little offs i cnt = .ok () := by
  intro cnt
  induction cnt with
  | zero => intro i _; rfl
  | succ m ih =>
    intro i h
    unfold checkTable
    rw [string_info_at_ok (h i (Nat.le_refl i) (by omega))]
    exact ih (i + 1) (fun k hk1 hk2 => h k (by omega) (by omega))

theorem checkTable_err (buf : List Nat) (little : Bool) (offs : Nat) :
    ∀ cnt i j, i ≤ j → j < i + cnt →
      eofViolAt buf little (offs + 8 * j) →
      (∀ k, i ≤ k → k < j → entryOkAt buf little (offs + 8 * k)) →
      checkTable buf little offs i cnt =
        .error (eofViolationMsg (offs + 8 * j) (u32At buf little (offs + 8 * j))
          (u32At buf little (offs + 8 * j + 4)) buf.length) := by
  intro cnt
  induction cnt with
  | zero => intro i j h1 h2; omega
  | succ m ih =>
    intro i j hij hlt hviol hprev
    unfold checkTable
    rcases Nat.eq_or_lt_of_le hij with heq | hlt2
    · subst heq
      rw [string_info_at_eof hviol]
    · rw [string_info_at_ok (hprev i (Nat.le_refl i) hlt2)]
      exact ih (i + 1) j hlt2 (by omega) hviol (fun k hk1 hk2 => hprev k (by omega) hk2)

/-- C5: during catalogue loading, when the table scan meets a string
descriptor violating `address + length + 1 ≤ buf.size` (all earlier
descriptors in scan order passing both checks), `load_from_file` fails with
exactly the message
`string_info at 0x<table-entry-addr>: extends beyond EOF (len:0x<len>
addr:0x<addr> file size:0x<size>)` — all four values in lowercase
hexadecimal — and no catalogue is returned. -/
theorem c5_string_info_eof_failure (buf : List Nat) (little : Bool) (j : Nat)
    (hmagic : u32At buf true 0 = if little then 0x950412DE else 0xDE120495)
    (hlen : 20 ≤ buf.length)
    (hver : u32At buf little 4 < 65536)
    (hfit : u32At buf little 12 + 8 * u32At buf little 8 ≤ buf.length ∧
      u32At buf little 16 + 8 * u32At buf little 8 ≤ buf.length)
    (hj : j < 2 * u32At buf little 8)
    (hviol : eofViolAt buf little (scanAddr buf little j))
    (hprev : ∀ k, k < j → entryOkAt buf little (scanAddr buf little k)) :
    load_from_file buf =
        .error (eofViolationMsg (scanAddr buf little j)
          (u32At buf little (scanAddr buf little j))
          (u32At buf little (scanAddr buf little j + 4)) buf.length) ∧
      ∀ c, load_from_file buf ≠ .ok c := by
  have hN := u32At buf little 8
  refine and_iff_left_of_imp ?_ |>.mpr ?_
  · intro h c
    rw [h]
    intro hc
    exact Except.noConfusion hc
  · unfold load_from_file
    rw [if_neg (by omega)]
    have hbody : ∀ e : Bool, u32At buf e 4 < 65536 →
        u32At buf e 12 + 8 * u32At buf e 8 ≤ buf.length ∧
          u32At buf e 16 + 8 * u32At buf e 8 ≤ buf.length →
        j < 2 * u32At buf e 8 → eofViolAt buf e (scanAddr buf e j) →
        (∀ k, k < j → entryOkAt buf e (scanAddr buf e k)) →
        load_body buf e =
          .error (eofViolationMsg (scanAddr buf e j) (u32At buf e (scanAddr buf e j))
            (u32At buf e (scanAddr buf e j + 4)) buf.length) := by
      intro e hver hfit hj hviol hprev
      unfold load_body
      rw [if_neg (by exact Nat.not_le_of_lt hver)]
      rw [if_pos hfit]
      by_cases hjN : j < u32At buf e 8
      · have hscan : scanAddr buf e j = u32At buf e 12 + 8 * j := by
          unfold scanAddr; rw [if_pos hjN]
        rw [checkTable_err buf e (u32At buf e 12) (u32At buf e 8) 0 j
          (Nat.zero_le j) (by omega) (by rw [← hscan]; exact hviol)
          (fun k _ hk2 => by
            have := hprev k hk2
            rwa [show scanAddr buf e k = u32At buf e 12 + 8 * k from by
              unfold scanAddr; rw [if_pos (by omega)]] at this)]
        rw [hscan]
      · have hscan : scanAddr buf e j =
            u32At buf e 16 + 8 * (j - u32At buf e 8) := by
          unfold scanAddr; rw [if_neg hjN]
        rw [checkTable_ok buf e (u32At buf e 12) (u32At buf e 8) 0
          (fun k _ hk2 => by
            have := hprev k (by omega)
            rwa [show scanAddr buf e k = u32At buf e 12 + 8 * k from by
              unfold scanAddr; rw [if_pos (by omega)]] at this)]
        rw [checkTable_err buf e (u32At buf e 16) (u32At buf e 8) 0
          (j - u32At buf e 8) (Nat.zero_le _) (by omega)
          (by rw [← hscan]; exact hviol)
          (fun k _ hk2 => by
            have := hprev (u32At buf e 8 + k) (by omega)
            rwa [show scanAddr buf e (u32At buf e 8 + k) =
                u32At buf e 16 + 8 * k from by
              unfold scanAddr; rw [if_neg (by omega)]; congr 1; omega] at this)]
        rw [hscan]
    cases little with
    | true =>
      rw [if_pos rfl] at hmagic
      rw [hmagic, if_pos rfl]
      exact hbody true hver hfit hj hviol hprev
    | false =>
      rw [if_neg (by simp)] at hmagic
      rw [hmagic, if_neg (by norm_num), if_pos rfl]
      exact hbody false hver hfit hj hviol hprev

/-- Little-endian 32-bit byte encoding, used to build concrete MO buffers. -/
def w32le (v : Nat) : List Nat := [v % 256, v / 256 % 256, v / 65536 % 256, v / 16777216 % 256]

/-- A concrete little-endian MO buffer reproducing the failure of the test
file `single_ru_string_ignores_eof.mo`: 15 string pairs, originals table at
`0x14`, translations table at `0x8c`, file size `0x375`; originals entry 14
(table address `0x84`) declares `len = 0x16`, `addr = 0x35f`, and
`0x35f + 0x16 + 1 = 0x376` exceeds the file size. -/
def eofSampleBuf : List Nat :=
  w32le 0x950412DE ++ w32le 0 ++ w32le 15 ++ w32le 20 ++ w32le 140 ++
    (List.range 14).flatMap (fun _ => w32le 0 ++ w32le 260) ++ w32le 22 ++ w32le 863 ++
    List.replicate 745 0

/-- Witness for C5 at the concrete buffer: the message matches the test
expectation character for character. -/
theorem c5_string_info_eof_failure_witness :
    load_from_file eofSampleBuf =
        .error "string_info at 0x84: extends beyond EOF (len:0x16 addr:0x35f file size:0x375)" ∧
      ∀ c, load_from_file eofSampleBuf ≠ .ok c := by
  have h := c5_string_info_eof_failure eofSampleBuf true 14 (by decide) (by decide)
    (by decide) (by decide) (by decide) (by decide) (by decide)
  exact ⟨h.1.trans (congrArg Except.error (by decide)), h.2⟩

/-! ### C8, C9: library lookup semantics -/

theorem bytesLt_irrefl : ∀ l : List Nat, bytesLt l l = false := by
  intro l
  induction l with
  | nil => rfl
  | cons a as ih => simp [bytesLt, ih]

theorem bytesLt_conn : ∀ {a b : List Nat}, bytesLt a b = false → bytesLt b a = false → a = b := by
  intro a
  induction a with
  | nil => intro b h _; cases b <;> simp_all [bytesLt]
  | cons x xs ih =>
    intro b h1 h2
    cases b with
    | nil => simp [bytesLt] at h2
    | cons y ys =>
      simp only [bytesLt] at h1 h2
      by_cases hxy : x < y
      · rw [if_pos hxy] at h1; exact absurd h1 (by simp)
      · by_cases hyx : y < x
        · rw [if_pos hyx] at h2; exact absurd h2 (by simp)
        · rw [if_neg hxy, if_neg hyx] at h1
          rw [if_neg hyx, if_neg hxy] at h2
          have hx : x = y := by omega
          rw [hx, ih h1 h2]

theorem bytesLt_trans : ∀ {a b c : List Nat},
    bytesLt a b = true → bytesLt b c = true → bytesLt a c = true := by
  intro a
  induction a with
  | nil => intro b c _ hbc; cases b <;> cases c <;> simp_all [bytesLt]
  | cons x xs ih =>
    intro b c hab hbc
    cases b with
    | nil => simp [bytesLt] at hab
    | cons y ys =>
      cases c with
      | nil => simp [bytesLt] at hbc
      | cons z zs =>
        simp only [bytesLt] at hab hbc ⊢
        by_cases h1 : x < y
        · by_cases h3 : z < y
          · rw [if_neg (by omega), if_pos h3] at hbc; exact absurd hbc (by simp)
          · by_cases h2 : y < z
            · rw [if_pos (by omega)]
            · rw [if_pos (by omega)]
        · by_cases h1' : y < x
          · rw [if_neg h1, if_pos h1'] at hab; exact absurd hab (by simp)
          · rw [if_neg h1, if_neg h1'] at hab
            by_cases h2 : y < z
            · rw [if_pos (by omega)]
            · by_cases h3 : z < y
              · rw [if_neg h2, if_pos h3] at hbc; exact absurd hbc (by simp)
              · rw [if_neg h2, if_neg h3] at hbc
                rw [if_neg (by omega), if_neg (by omega)]
                exact ih hab hbc

/-- Characterization of the descriptor ordering. -/
theorem idxLe_iff (x y : IdxEntry) :
    idxLe x y ↔ bytesLt x.1 y.1 = true ∨
      (x.1 = y.1 ∧ (x.2.1 < y.2.1 ∨ (x.2.1 = y.2.1 ∧ x.2.2 ≤ y.2.2))) := by
  unfold idxLe idxLeB
  by_cases h1 : bytesLt x.1 y.1 = true
  · rw [if_pos h1]; simp [h1]
  · rw [if_neg h1]
    by_cases h2 : bytesLt y.1 x.1 = true
    · rw [if_pos h2]
      constructor
      · intro h; exact absurd h (by simp)
      · rintro (h | ⟨heq, _⟩)
        · exact absurd h h1
        · rw [heq, bytesLt_irrefl] at h2; exact absurd h2 (by simp)
    · rw [if_neg h2]
      have heq : x.1 = y.1 := bytesLt_conn (by simpa using h1) (by simpa using h2)
      by_cases h3 : x.2.1 < y.2.1
      · rw [if_pos h3]; simp [heq, h3]
      · rw [if_neg h3]
        by_cases h4 : y.2.1 < x.2.1
        · rw [if_pos h4]
          constructor
          · intro h; exact absurd h (by simp)
          · rintro (h | ⟨_, h | ⟨h5, _⟩⟩)
            · exact absurd h h1
            · omega
            · omega
        · rw [if_neg h4]
          constructor
          · intro h
            exact Or.inr ⟨heq, Or.inr ⟨by omega, by simpa using h⟩⟩
          · rintro (h | ⟨_, h | ⟨_, h6⟩⟩)
            · exact absurd h h1
            · omega
            · simpa using h6

theorem idxLe_refl (x : IdxEntry) : idxLe x x := by
  rw [idxLe_iff]
  exact Or.inr ⟨rfl, Or.inr ⟨rfl, Nat.le_refl _⟩⟩

instance : IsTrans IdxEntry idxLe := by
  constructor
  intro a b c hab hbc
  rw [idxLe_iff] at hab hbc ⊢
  rcases hab with h1 | ⟨e1, h1⟩ <;> rcases hbc with h2 | ⟨e2, h2⟩
  · exact Or.inl (bytesLt_trans h1 h2)
  · exact Or.inl (e2 ▸ h1)
  · exact Or.inl (e1 ▸ h2)
  · exact Or.inr ⟨e1.trans e2, by omega⟩

instance : IsTotal IdxEntry idxLe := by
  constructor
  intro a b
  by_cases h1 : bytesLt a.1 b.1 = true
  · exact Or.inl ((idxLe_iff a b).mpr (Or.inl h1))
  · by_cases h2 : bytesLt b.1 a.1 = true
    · exact Or.inr ((idxLe_iff b a).mpr (Or.inl h2))
    · have he : a.1 = b.1 := bytesLt_conn (by simpa using h1) (by simpa using h2)
      rcases Nat.lt_trichotomy a.2.1 b.2.1 with h | h | h
      · exact Or.inl ((idxLe_iff a b).mpr (Or.inr ⟨he, Or.inl h⟩))
      · rcases Nat.le_total a.2.2 b.2.2 with h' | h'
        · exact Or.inl ((idxLe_iff a b).mpr (Or.inr ⟨he, Or.inr ⟨h, h'⟩⟩))
        · exact Or.inr ((idxLe_iff b a).mpr (Or.inr ⟨he.symm, Or.inr ⟨h.symm, h'⟩⟩))
      · exact Or.inr ((idxLe_iff b a).mpr (Or.inr ⟨he.symm, Or.inl h⟩))

/-- In a sorted list, `find?` returns an element below every matching
element. -/
theorem find?_min_of_sorted :
    ∀ {l : List IdxEntry}, l.Sorted idxLe → ∀ {p : IdxEntry → Bool} {x : IdxEntry},
      l.find? p = some x → ∀ y ∈ l, p y = true → idxLe x y := by
  intro l
  induction l with
  | nil => intro _ p x hf; cases hf
  | cons a as ih =>
    intro hs p x hf y hy hpy
    by_cases hpa : p a = true
    · rw [List.find?_cons_of_pos _ hpa] at hf
      cases hf
      rcases List.mem_cons.mp hy with rfl | hy2
      · exact idxLe_refl _
      · exact List.rel_of_sorted_cons hs _ hy2
    · rw [List.find?_cons_of_neg _ (by simpa using hpa)] at hf
      rcases List.mem_cons.mp hy with rfl | hy2
      · exact absurd hpy hpa
      · exact ih hs.of_cons hf y hy2 hpy

theorem origKeyOf_eq (cats : List trans_catalogue) (i m : Nat) :
    origKeyOf cats (i, m) = (cats.getD i default).get_nth_orig_string m := rfl

theorem mem_all_descriptors {cats : List trans_catalogue} {d : Nat × Nat} :
    d ∈ all_descriptors cats ↔
      d.1 < cats.length ∧ 0 < d.2 ∧ d.2 < (cats.getD d.1 default).number_of_strings := by
  unfold all_descriptors
  rcases d with ⟨i, n⟩
  simp only [List.mem_flatMap, List.mem_map, List.mem_filter, List.mem_range]
  constructor
  · rintro ⟨i', hi', n', ⟨⟨hn', hp'⟩, heq⟩⟩
    cases heq
    exact ⟨hi', by simpa using hp', hn'⟩
  · rintro ⟨hi, hp, hn⟩
    exact ⟨i, hi, n, ⟨⟨hn, by simpa using hp⟩, rfl⟩⟩

/-- Membership in the sorted index table is membership among the
descriptors. -/
theorem mem_string_vec {cats : List trans_catalogue} {d : Nat × Nat}
    (hd : d ∈ build_string_table cats) : d ∈ all_descriptors cats := by
  unfold build_string_table at hd
  rcases List.mem_map.mp hd with ⟨t, ht, rfl⟩
  have ht2 : t ∈ (all_descriptors cats).map (fun d => (origKeyOf cats d, d)) :=
    (List.perm_insertionSort idxLe _).mem_iff.mp ht
  rcases List.mem_map.mp ht2 with ⟨d', hd', heq⟩
  cases heq
  exact hd'

/-- C9: for a msgid present in no catalogue of the library, `get_pl` returns
`msgid` exactly when `n = 1` and `msgid_pl` otherwise. -/
theorem c9_get_pl_miss (cats : List trans_catalogue) (msgid msgid_pl : List Nat) (n : Nat)
    (h : ∀ i m, i < cats.length → 0 < m → m < (cats.getD i default).number_of_strings →
      (cats.getD i default).get_nth_orig_string m ≠ msgid) :
    (trans_library.create cats).get_pl msgid msgid_pl n =
      if n = 1 then msgid else msgid_pl := by
  unfold trans_library.get_pl trans_library.lookup_pl_string_in_table trans_library.find_in_table
    trans_library.create
  have hfind : (build_string_table cats).find? (fun d => origKeyOf cats d == msgid) = none := by
    rw [List.find?_eq_none]
    intro d hd
    rcases mem_all_descriptors.mp (mem_string_vec hd) with ⟨h1, h2, h3⟩
    have hne := h d.1 d.2 h1 h2 h3
    simp only [beq_iff_eq]
    rw [show origKeyOf cats d = (cats.getD d.1 default).get_nth_orig_string d.2 from rfl]
    exact hne
  rw [hfind]
  rfl

/-- Witness for C9: on a library with no catalogues every lookup misses. -/
theorem c9_get_pl_miss_witness :
    (trans_library.create []).get_pl [104, 105] [104, 115] 5 =
      if 5 = 1 then [104, 105] else [104, 115] :=
  c9_get_pl_miss [] [104, 105] [104, 115] 5
    (fun i _ hi _ _ => absurd hi (Nat.not_lt_zero i))

/-- C8: for a library created from an ordered catalogue list and a msgid
present in at least one catalogue, `get` returns the translation of the
first (in catalogue-list order, then entry order) entry carrying that
msgid: equal msgids are ordered in the index by ascending catalogue index
then ascending entry index, and the first one wins at query time. -/
theorem c8_first_catalogue_wins (cats : List trans_catalogue) (msgid : List Nat) (i0 m0 : Nat)
    (hi0 : i0 < cats.length) (h0m : 0 < m0)
    (hm0 : m0 < (cats.getD i0 default).number_of_strings)
    (hkey : (cats.getD i0 default).get_nth_orig_string m0 = msgid)
    (hfirstCat : ∀ i m, i < cats.length → 0 < m →
      m < (cats.getD i default).number_of_strings →
      (cats.getD i default).get_nth_orig_string m = msgid → i0 ≤ i)
    (hfirstEntry : ∀ m, 0 < m → m < (cats.getD i0 default).number_of_strings →
      (cats.getD i0 default).get_nth_orig_string m = msgid → m0 ≤ m) :
    (trans_library.create cats).get msgid =
      (cats.getD i0 default).get_nth_translation m0 := by
  unfold trans_library.get trans_library.lookup_string_in_table trans_library.find_in_table
    trans_library.create
  set triples := (all_descriptors cats).map (fun d => (origKeyOf cats d, d)) with htr
  set T := List.insertionSort idxLe triples with hT
  have hsv : build_string_table cats = T.map Prod.snd := rfl
  have hsorted : T.Sorted idxLe := List.sorted_insertionSort idxLe triples
  have hkey' : origKeyOf cats (i0, m0) = msgid := by rw [origKeyOf_eq]; exact hkey
  have htm : (msgid, (i0, m0)) ∈ T := by
    rw [hT, (List.perm_insertionSort idxLe triples).mem_iff, htr]
    refine List.mem_map.mpr ⟨(i0, m0), mem_all_descriptors.mpr ⟨hi0, h0m, hm0⟩, ?_⟩
    rw [hkey']
  have hex : (T.find? (fun t => origKeyOf cats t.2 == msgid)).isSome := by
    rw [List.find?_isSome]
    exact ⟨(msgid, (i0, m0)), htm, by simp only [beq_iff_eq]; exact hkey'⟩
  rcases Option.isSome_iff_exists.mp hex with ⟨x, hx⟩
  have hxT : x ∈ T := List.mem_of_find?_eq_some hx
  have hpx : origKeyOf cats x.2 = msgid := by
    have := List.find?_some hx
    simpa using this
  have hxtr : x ∈ triples := (List.perm_insertionSort idxLe triples).mem_iff.mp hxT
  have hxkey : x.1 = origKeyOf cats x.2 := by
    rcases List.mem_map.mp hxtr with ⟨d, _, heq⟩
    rw [← heq]
  have hxdesc : x.2 ∈ all_descriptors cats := by
    rcases List.mem_map.mp hxtr with ⟨d, hd, heq⟩
    rw [← heq]
    exact hd
  rcases mem_all_descriptors.mp hxdesc with ⟨hx1, hx2, hx3⟩
  have hpx' : (cats.getD x.2.1 default).get_nth_orig_string x.2.2 = msgid := by
    rw [← origKeyOf_eq]
    exact hpx
  have hle0 : idxLe x (msgid, (i0, m0)) :=
    find?_min_of_sorted hsorted hx _ htm (by simp only [beq_iff_eq]; exact hkey')
  have hi0x : i0 ≤ x.2.1 := hfirstCat x.2.1 x.2.2 hx1 hx2 hx3 hpx'
  have hle : bytesLt x.1 msgid = true ∨
      (x.1 = msgid ∧ (x.2.1 < i0 ∨ (x.2.1 = i0 ∧ x.2.2 ≤ m0))) := (idxLe_iff _ _).mp hle0
  have hx1eq : x.1 = msgid := by rw [hxkey, hpx]
  have hxmain : x.2.1 = i0 ∧ x.2.2 = m0 := by
    rcases hle with h | ⟨_, h | ⟨h5, h6⟩⟩
    · rw [hx1eq, bytesLt_irrefl] at h; exact absurd h (by simp)
    · omega
    · have hkx : (cats.getD i0 default).get_nth_orig_string x.2.2 = msgid := by
        rw [← h5]; exact hpx'
      have := hfirstEntry x.2.2 hx2 (h5 ▸ hx3) hkx
      exact ⟨h5, by omega⟩
  rw [hsv, List.find?_map]
  have hcomp : ((fun d => origKeyOf cats d == msgid) ∘ Prod.snd) =
      (fun t : IdxEntry => origKeyOf cats t.2 == msgid) := rfl
  rw [hcomp, hx]
  have hfin : (Option.map (fun d => (cats.getD d.1 default).get_nth_translation d.2)
      (Option.map Prod.snd (some x))).getD msgid =
      (cats.getD x.2.1 default).get_nth_translation x.2.2 := rfl
  rw [hfin, hxmain.1, hxmain.2]

/-- A minimal catalogue whose entry 1 maps msgid `"x"` to `"A"`. -/
def cWitA : trans_catalogue :=
  { is_little_endian := true,
    buf := w32le 0 ++ w32le 32 ++ w32le 1 ++ w32le 33 ++ w32le 0 ++ w32le 32 ++
      w32le 1 ++ w32le 35 ++ [0, 120, 0, 65, 0],
    num_plural_forms := 1, plf_rules := PlfNode.lit 0, number_of_strings := 2,
    offs_orig_table := 0, offs_trans_table := 16 }

/-- A second catalogue whose entry 1 maps the same msgid `"x"` to `"B"`. -/
def cWitB : trans_catalogue :=
  { cWitA with
    buf := w32le 0 ++ w32le 32 ++ w32le 1 ++ w32le 33 ++ w32le 0 ++ w32le 32 ++
      w32le 1 ++ w32le 35 ++ [0, 120, 0, 66, 0] }

/-- Witness for C8: with two catalogues both containing msgid `"x"`, the
library answers with the first catalogue's translation. -/
theorem c8_first_catalogue_wins_witness :
    (trans_library.create [cWitA, cWitB]).get [120] =
      ([cWitA, cWitB].getD 0 default).get_nth_translation 1 :=
  c8_first_catalogue_wins [cWitA, cWitB] [120] 0 1 (by decide) (by decide) (by decide)
    (by decide) (fun i _ _ _ _ _ => Nat.zero_le i) (fun _ hm _ _ => hm)

/-! ### C3: dump-after-parse round trip

The development shows that any AST produced by the parser dumps to a string
that lexes back to a canonical token list (`dtoksAt`), and that the parser
reconstructs exactly the same AST from that token list; idempotence of
`debug_dump ∘ parse` on the image of `debug_dump` follows. -/

/-- All literal values of the AST fit in u32 (an invariant of parser
output, needed to re-lex the dump). -/
def litsOk : PlfNode → Prop
  | .lit v => v ≤ u32max
  | .var => True
  | .bin _ a b => litsOk a ∧ litsOk b
  | .ter a b c => litsOk a ∧ litsOk b ∧ litsOk c

/-- All literal tokens of a token list fit in u32 (an invariant of lexer
output). -/
def toksOk (ts : Toks) : Prop := ∀ v q, (Tok.tLit v, q) ∈ ts → v ≤ u32max

/-- The token of a binary operator. -/
def opTok : PlfOp → Tok
  | .Mod => Tok.tMod
  | .Eq => Tok.tEq
  | .NotEq => Tok.tNeq
  | .GreaterEq => Tok.tGe
  | .Greater => Tok.tGt
  | .LessEq => Tok.tLe
  | .Less => Tok.tLt
  | .And => Tok.tAnd
  | .Or => Tok.tOr

/-- Character length of an operator spelling. -/
def opLen : PlfOp → Nat
  | .Mod => 1
  | .Eq => 2
  | .NotEq => 2
  | .GreaterEq => 2
  | .Greater => 1
  | .LessEq => 2
  | .Less => 1
  | .And => 2
  | .Or => 2

theorem opChars_length (op : PlfOp) : (opChars op).length = opLen op := by
  cases op <;> rfl

/-- Character length of the dump of a node. -/
def dlen : PlfNode → Nat
  | .lit v => (natChars v).length
  | .var => 1
  | .bin op a b => 2 + dlen a + opLen op + dlen b
  | .ter a b c => 4 + dlen a + dlen b + dlen c

theorem dumpChars_length (t : PlfNode) : (dumpChars t).length = dlen t := by
  induction t with
  | lit v => rfl
  | var => rfl
  | bin op a b iha ihb =>
    simp [dumpChars, dlen, iha, ihb, opChars_length]
    omega
  | ter a b c iha ihb ihc =>
    simp [dumpChars, dlen, iha, ihb, ihc]
    omega

/-- Token count of the dump of a node. -/
def tcount : PlfNode → Nat
  | .lit _ => 1
  | .var => 1
  | .bin _ a b => 3 + tcount a + tcount b
  | .ter a b c => 4 + tcount a + tcount b + tcount c

/-- The token list, with positions, produced by lexing the dump of a node
laid out starting at position `p`. -/
def dtoksAt : PlfNode → Nat → Toks
  | .lit v, p => [(Tok.tLit v, p)]
  | .var, p => [(Tok.tVar, p)]
  | .bin op a b, p =>
    (Tok.tBrOpen, p) :: dtoksAt a (p + 1) ++
      (opTok op, p + 1 + dlen a) :: dtoksAt b (p + 1 + dlen a + opLen op) ++
      [(Tok.tBrClose, p + 1 + dlen a + opLen op + dlen b)]
  | .ter a b c, p =>
    (Tok.tBrOpen, p) :: dtoksAt a (p + 1) ++
      (Tok.tQ, p + 1 + dlen a) :: dtoksAt b (p + 2 + dlen a) ++
      (Tok.tColon, p + 2 + dlen a + dlen b) :: dtoksAt c (p + 3 + dlen a + dlen b) ++
      [(Tok.tBrClose, p + 3 + dlen a + dlen b + dlen c)]

/-- The tokens of the dump of a node without the enclosing brackets (for
leaves, just the leaf token). -/
def innerToksAt : PlfNode → Nat → Toks
  | .bin op a b, p =>
    dtoksAt a p ++ (opTok op, p + dlen a) :: dtoksAt b (p + dlen a + opLen op)
  | .ter a b c, p =>
    dtoksAt a p ++ (Tok.tQ, p + dlen a) :: dtoksAt b (p + 1 + dlen a) ++
      (Tok.tColon, p + 1 + dlen a + dlen b) :: dtoksAt c (p + 2 + dlen a + dlen b)
  | t, p => dtoksAt t p

theorem dtoks_bin (op : PlfOp) (a b : PlfNode) (p : Nat) :
    dtoksAt (.bin op a b) p =
      (Tok.tBrOpen, p) :: (innerToksAt (.bin op a b) (p + 1) ++
        [(Tok.tBrClose, p + 1 + dlen a + opLen op + dlen b)]) := by
  simp [dtoksAt, innerToksAt]

theorem dtoks_ter (a b c : PlfNode) (p : Nat) :
    dtoksAt (.ter a b c) p =
      (Tok.tBrOpen, p) :: (innerToksAt (.ter a b c) (p + 1) ++
        [(Tok.tBrClose, p + 3 + dlen a + dlen b + dlen c)]) := by
  simp [dtoksAt, innerToksAt]
  all_goals omega

theorem dtoks_length (t : PlfNode) : ∀ p, (dtoksAt t p).length = tcount t := by
  induction t with
  | lit v => intro p; rfl
  | var => intro p; rfl
  | bin op a b iha ihb =>
    intro p
    simp [dtoksAt, tcount, iha, ihb]
    omega
  | ter a b c iha ihb ihc =>
    intro p
    simp [dtoksAt, tcount, iha, ihb, ihc]
    omega

/-- The head token of `r`, if any, is not one of `bad`. -/
def headNotIn (r : Toks) (bad : List Tok) : Prop :=
  match r with
  | [] => True
  | (tok, _) :: _ => tok ∉ bad

/-- `r` is empty or starts with a closing bracket or ternary delimiter —
the only tokens that can follow a complete sub-expression inside a dump. -/
def StopToks (r : Toks) : Prop :=
  match r with
  | [] => True
  | (tok, _) :: _ => tok = Tok.tBrClose ∨ tok = Tok.tColon

theorem stop_headNotIn {r : Toks} {bad : List Tok} (h : StopToks r)
    (hb1 : Tok.tBrClose ∉ bad) (hb2 : Tok.tColon ∉ bad) : headNotIn r bad := by
  match r with
  | [] => trivial
  | (tok, _) :: _ =>
    rcases h with h | h <;> rw [h] <;> assumption

/-! #### Decimal printing round trip -/

theorem char_ofNat_digit_toNat {d : Nat} (h : d < 10) :
    (Char.ofNat (48 + d)).toNat = 48 + d := by
  interval_cases d <;> decide

theorem natCharsAux_digits : ∀ f v, ∀ c ∈ natCharsAux f v, isDigitB c = true := by
  intro f
  induction f with
  | zero => intro v c hc; simp [natCharsAux] at hc
  | succ m ih =>
    intro v c hc
    unfold natCharsAux at hc
    by_cases hv : v = 0
    · rw [if_pos hv] at hc; simp at hc
    · rw [if_neg hv] at hc
      rcases List.mem_append.mp hc with hc | hc
      · exact ih _ c hc
      · have : c = Char.ofNat (48 + v % 10) := by simpa using hc
        rw [this]
        have hlt : v % 10 < 10 := Nat.mod_lt _ (by omega)
        simp [isDigitB, char_ofNat_digit_toNat hlt]
        omega

theorem natCharsAux_ne_nil : ∀ f v, 0 < v → v ≤ f → natCharsAux f v ≠ [] := by
  intro f
  cases f with
  | zero => intro v h1 h2; omega
  | succ m =>
    intro v h1 _
    unfold natCharsAux
    rw [if_neg (by omega)]
    simp

theorem natChars_digits (v : Nat) : ∀ c ∈ natChars v, isDigitB c = true := by
  intro c hc
  unfold natChars at hc
  by_cases hv : v = 0
  · rw [if_pos hv] at hc
    have : c = '0' := by simpa using hc
    rw [this]; decide
  · rw [if_neg hv] at hc
    exact natCharsAux_digits v v c hc

theorem natChars_ne_nil (v : Nat) : natChars v ≠ [] := by
  unfold natChars
  by_cases hv : v = 0
  · rw [if_pos hv]; simp
  · rw [if_neg hv]; exact natCharsAux_ne_nil v v (by omega) (Nat.le_refl v)

theorem foldl_natCharsAux : ∀ f v a, v ≤ f →
    List.foldl (fun acc c => 10 * acc + (c.toNat - 48)) a (natCharsAux f v) =
      a * 10 ^ (natCharsAux f v).length + v := by
  intro f
  induction f with
  | zero => intro v a hv; interval_cases v; simp [natCharsAux]
  | succ m ih =>
    intro v a hv
    unfold natCharsAux
    by_cases hv0 : v = 0
    · rw [if_pos hv0]; simp [hv0]
    · rw [if_neg hv0]
      rw [List.foldl_append]
      have hdiv : v / 10 ≤ m := by
        have := Nat.div_lt_self (by omega : 0 < v) (by omega : 1 < 10)
        omega
      rw [ih (v / 10) a hdiv]
      simp only [List.foldl_cons, List.foldl_nil, List.length_append, List.length_singleton]
      have hmod : v % 10 < 10 := Nat.mod_lt _ (by omega)
      rw [char_ofNat_digit_toNat hmod]
      have : (48 : Nat) + v % 10 - 48 = v % 10 := by omega
      rw [this]
      rw [pow_succ]
      have hvm := Nat.div_add_mod v 10
      ring_nf
      omega

theorem digitsToNat_natChars (v : Nat) : digitsToNat (natChars v) = v := by
  unfold digitsToNat natChars
  by_cases hv : v = 0
  · rw [if_pos hv]; simp [hv]
  · rw [if_neg hv]
    rw [foldl_natCharsAux v v 0 (Nat.le_refl v)]
    simp

/-! #### Lexing the dump -/

/-- The head of `s`, if any, fails predicate `p`. -/
def headF (p : Char → Bool) (s : List Char) : Prop :=
  match s with
  | [] => True
  | c :: _ => p c = false

theorem isDigitB_ne {c : Char} (h : isDigitB c = true) (d : Char)
    (hd : isDigitB d = false) : c ≠ d := by
  intro he
  rw [he, hd] at h
  cases h

theorem takeWhile_append_all {p : Char → Bool} :
    ∀ {l s : List Char}, (∀ x ∈ l, p x = true) →
      (l ++ s).takeWhile p = l ++ s.takeWhile p := by
  intro l
  induction l with
  | nil => intro s _; rfl
  | cons a l ih =>
    intro s h
    simp only [List.cons_append, List.takeWhile_cons]
    rw [if_pos (h a (by simp)), ih (fun x hx => h x (by simp [hx]))]

theorem dropWhile_append_all {p : Char → Bool} :
    ∀ {l s : List Char}, (∀ x ∈ l, p x = true) →
      (l ++ s).dropWhile p = s.dropWhile p := by
  intro l
  induction l with
  | nil => intro s _; rfl
  | cons a l ih =>
    intro s h
    simp only [List.cons_append, List.dropWhile_cons]
    rw [if_pos (h a (by simp))]
    exact ih (fun x hx => h x (by simp [hx]))

theorem takeWhile_head_nil {p : Char → Bool} {s : List Char} (h : headF p s) :
    s.takeWhile p = [] := by
  match s with
  | [] => rfl
  | c :: s' =>
    have h' : p c = false := h
    simp [List.takeWhile_cons, h']

theorem dropWhile_head_self {p : Char → Bool} {s : List Char} (h : headF p s) :
    s.dropWhile p = s := by
  match s with
  | [] => rfl
  | c :: s' =>
    have h' : p c = false := h
    simp [List.dropWhile_cons, h']

theorem lex_digit_run {l s : List Char} {f p : Nat}
    (hl : l ≠ []) (hdig : ∀ c ∈ l, isDigitB c = true)
    (hs : headF isDigitB s) (hval : digitsToNat l ≤ u32max) :
    lexChars (f + 1) (l ++ s) p =
      (lexChars f s (p + l.length)).map
        (fun ts => (Tok.tLit (digitsToNat l), p) :: ts) := by
  match l, hl with
  | c :: rest, _ =>
    have hc : isDigitB c = true := hdig c (by simp)
    have hne := fun d hd => isDigitB_ne hc d hd
    show lexChars (f + 1) (c :: (rest ++ s)) p = _
    simp only [lexChars]
    rw [if_neg (by rintro (he | he | he) <;> exact hne _ (by decide) he),
      if_neg (hne _ (by decide)), if_neg (hne _ (by decide)), if_neg (hne _ (by decide)),
      if_neg (hne _ (by decide)), if_neg (hne _ (by decide)), if_neg (hne _ (by decide)),
      if_neg (hne _ (by decide)), if_neg (hne _ (by decide)), if_neg (hne _ (by decide)),
      if_neg (hne _ (by decide)), if_neg (hne _ (by decide)), if_pos hc]
    have htake : (rest ++ s).takeWhile isDigitB = rest := by
      rw [takeWhile_append_all (fun x hx => hdig x (by simp [hx])), takeWhile_head_nil hs,
        List.append_nil]
    have hdrop : (rest ++ s).dropWhile isDigitB = s := by
      rw [dropWhile_append_all (fun x hx => hdig x (by simp [hx])), dropWhile_head_self hs]
    simp only [htake, hdrop]
    rw [if_pos hval]
    have : p + 1 + rest.length = p + (c :: rest).length := by simp; omega
    rw [this]

theorem lex_var {s : List Char} {f p : Nat} (hs : headF Char.isAlpha s) :
    lexChars (f + 1) ('n' :: s) p = (lexChars f s (p + 1)).map (fun ts => (Tok.tVar, p) :: ts) := by
  simp only [lexChars]
  rw [if_neg (by rintro (he | he | he) <;> cases he), if_neg (by decide), if_neg (by decide),
    if_neg (by decide), if_neg (by decide), if_neg (by decide), if_neg (by decide),
    if_neg (by decide), if_neg (by decide), if_neg (by decide), if_neg (by decide),
    if_neg (by decide), if_neg (by decide), if_pos (by decide)]
  rw [if_pos ?hp]
  case hp =>
    simp only [List.takeWhile_cons]
    rw [takeWhile_head_nil hs]
    simp

theorem lex_open {s : List Char} {f p : Nat} :
    lexChars (f + 1) ('(' :: s) p =
      (lexChars f s (p + 1)).map (fun ts => (Tok.tBrOpen, p) :: ts) := by
  simp only [lexChars]
  rw [if_neg (by rintro (he | he | he) <;> cases he), if_neg (by decide), if_pos (by decide)]

theorem lex_close {s : List Char} {f p : Nat} :
    lexChars (f + 1) (')' :: s) p =
      (lexChars f s (p + 1)).map (fun ts => (Tok.tBrClose, p) :: ts) := by
  simp only [lexChars]
  rw [if_neg (by rintro (he | he | he) <;> cases he), if_neg (by decide), if_neg (by decide),
    if_pos (by decide)]

theorem lex_q {s : List Char} {f p : Nat} :
    lexChars (f + 1) ('?' :: s) p =
      (lexChars f s (p + 1)).map (fun ts => (Tok.tQ, p) :: ts) := by
  simp only [lexChars]
  rw [if_neg (by rintro (he | he | he) <;> cases he), if_neg (by decide), if_neg (by decide),
    if_neg (by decide), if_pos (by decide)]

theorem lex_colon {s : List Char} {f p : Nat} :
    lexChars (f + 1) (':' :: s) p =
      (lexChars f s (p + 1)).map (fun ts => (Tok.tColon, p) :: ts) := by
  simp only [lexChars]
  rw [if_neg (by rintro (he | he | he) <;> cases he), if_neg (by decide), if_neg (by decide),
    if_neg (by decide), if_neg (by decide), if_pos (by decide)]

/-- Heads that can start a dumped primary: an opening bracket, the variable,
or a digit. -/
def PrimHead (s : List Char) : Prop :=
  match s with
  | [] => True
  | c :: _ => c = '(' ∨ c = 'n' ∨ isDigitB c = true

theorem lex_op (op : PlfOp) {s : List Char} {f p : Nat} (hs : PrimHead s) :
    lexChars (f + 1) (opChars op ++ s) p =
      (lexChars f s (p + opLen op)).map (fun ts => (opTok op, p) :: ts) := by
  have hne : ∀ {c : Char}, (c = '(' ∨ c = 'n' ∨ isDigitB c = true) → c ≠ '=' := by
    rintro c (rfl | rfl | hc)
    · decide
    · decide
    · exact isDigitB_ne hc '=' (by decide)
  cases op with
  | Mod =>
    simp only [opChars, List.cons_append, List.nil_append, lexChars]
    rw [if_neg (by rintro (he | he | he) <;> cases he), if_pos (by decide)]
    simp [opTok, opLen]
  | Eq =>
    simp only [opChars, List.cons_append, List.nil_append, lexChars]
    rw [if_neg (by rintro (he | he | he) <;> cases he), if_neg (by decide),
      if_neg (by decide), if_neg (by decide), if_neg (by decide), if_neg (by decide),
      if_pos (by decide)]
    simp [opTok, opLen]
  | NotEq =>
    simp only [opChars, List.cons_append, List.nil_append, lexChars]
    rw [if_neg (by rintro (he | he | he) <;> cases he), if_neg (by decide),
      if_neg (by decide), if_neg (by decide), if_neg (by decide), if_neg (by decide),
      if_neg (by decide), if_pos (by decide)]
    simp [opTok, opLen]
  | GreaterEq =>
    simp only [opChars, List.cons_append, List.nil_append, lexChars]
    rw [if_neg (by rintro (he | he | he) <;> cases he), if_neg (by decide),
      if_neg (by decide), if_neg (by decide), if_neg (by decide), if_neg (by decide),
      if_neg (by decide), if_neg (by decide), if_neg (by decide), if_neg (by decide),
      if_pos (by decide)]
    simp [opTok, opLen]
  | Greater =>
    match s, hs with
    | [], _ =>
      simp only [opChars, List.cons_append, List.nil_append, lexChars]
      rw [if_neg (by rintro (he | he | he) <;> cases he), if_neg (by decide),
        if_neg (by decide), if_neg (by decide), if_neg (by decide), if_neg (by decide),
        if_neg (by decide), if_neg (by decide), if_neg (by decide), if_neg (by decide),
        if_pos (by decide)]
      rfl
    | c :: s', hs =>
      have hcne : c ≠ '=' := hne hs
      simp only [opChars, List.cons_append, List.nil_append, lexChars]
      rw [if_neg (by rintro (he | he | he) <;> cases he), if_neg (by decide),
        if_neg (by decide), if_neg (by decide), if_neg (by decide), if_neg (by decide),
        if_neg (by decide), if_neg (by decide), if_neg (by decide), if_neg (by decide),
        if_pos (by decide)]
      split
      · rename_i cs2 heq
        have heq2 : c :: s' = '=' :: cs2 := heq
        rw [List.cons.injEq] at heq2
        exact absurd heq2.1 hcne
      · simp [opTok, opLen]
  | LessEq =>
    simp only [opChars, List.cons_append, List.nil_append, lexChars]
    rw [if_neg (by rintro (he | he | he) <;> cases he), if_neg (by decide),
      if_neg (by decide), if_neg (by decide), if_neg (by decide), if_neg (by decide),
      if_neg (by decide), if_neg (by decide), if_neg (by decide), if_neg (by decide),
      if_neg (by decide), if_pos (by decide)]
    simp [opTok, opLen]
  | Less =>
    match s, hs with
    | [], _ =>
      simp only [opChars, List.cons_append, List.nil_append, lexChars]
      rw [if_neg (by rintro (he | he | he) <;> cases he), if_neg (by decide),
        if_neg (by decide), if_neg (by decide), if_neg (by decide), if_neg (by decide),
        if_neg (by decide), if_neg (by decide), if_neg (by decide), if_neg (by decide),
        if_neg (by decide), if_pos (by decide)]
      rfl
    | c :: s', hs =>
      have hcne : c ≠ '=' := hne hs
      simp only [opChars, List.cons_append, List.nil_append, lexChars]
      rw [if_neg (by rintro (he | he | he) <;> cases he), if_neg (by decide),
        if_neg (by decide), if_neg (by decide), if_neg (by decide), if_neg (by decide),
        if_neg (by decide), if_neg (by decide), if_neg (by decide), if_neg (by decide),
        if_neg (by decide), if_pos (by decide)]
      split
      · rename_i cs2 heq
        have heq2 : c :: s' = '=' :: cs2 := heq
        rw [List.cons.injEq] at heq2
        exact absurd heq2.1 hcne
      · simp [opTok, opLen]
  | And =>
    simp only [opChars, List.cons_append, List.nil_append, lexChars]
    rw [if_neg (by rintro (he | he | he) <;> cases he), if_neg (by decide),
      if_neg (by decide), if_neg (by decide), if_neg (by decide), if_neg (by decide),
      if_neg (by decide), if_neg (by decide), if_pos (by decide)]
    simp [opTok, opLen]
  | Or =>
    simp only [opChars, List.cons_append, List.nil_append, lexChars]
    rw [if_neg (by rintro (he | he | he) <;> cases he), if_neg (by decide),
      if_neg (by decide), if_neg (by decide), if_neg (by decide), if_neg (by decide),
      if_neg (by decide), if_neg (by decide), if_neg (by decide), if_pos (by decide)]
    simp [opTok, opLen]
/-- Characters that may follow a complete dumped sub-expression. -/
def safeChar (c : Char) : Bool :=
  c = ')' || c = ':' || c = '?' || c = '%' || c = '=' || c = '!' || c = '&' ||
    c = '|' || c = '<' || c = '>'

/-- The suffix, if nonempty, begins with a character that may follow a
complete dumped sub-expression. -/
def SafeFollow (s : List Char) : Prop :=
  match s with
  | [] => True
  | c :: _ => safeChar c = true

theorem safe_digit {s : List Char} (h : SafeFollow s) : headF isDigitB s := by
  match s with
  | [] => trivial
  | c :: s' =>
    have h' : safeChar c = true := h
    simp only [safeChar, Bool.or_eq_true, decide_eq_true_eq, or_assoc] at h'
    show isDigitB c = false
    rcases h' with rfl | rfl | rfl | rfl | rfl | rfl | rfl | rfl | rfl | rfl <;> decide

theorem safe_alpha {s : List Char} (h : SafeFollow s) : headF Char.isAlpha s := by
  match s with
  | [] => trivial
  | c :: s' =>
    have h' : safeChar c = true := h
    simp only [safeChar, Bool.or_eq_true, decide_eq_true_eq, or_assoc] at h'
    show Char.isAlpha c = false
    rcases h' with rfl | rfl | rfl | rfl | rfl | rfl | rfl | rfl | rfl | rfl <;> decide

theorem safeFollow_op (op : PlfOp) (X : List Char) : SafeFollow (opChars op ++ X) := by
  cases op with
  | Mod => show safeChar '%' = true; decide
  | Eq => show safeChar '=' = true; decide
  | NotEq => show safeChar '!' = true; decide
  | GreaterEq => show safeChar '>' = true; decide
  | Greater => show safeChar '>' = true; decide
  | LessEq => show safeChar '<' = true; decide
  | Less => show safeChar '<' = true; decide
  | And => show safeChar '&' = true; decide
  | Or => show safeChar '|' = true; decide

theorem safeFollow_close (s : List Char) : SafeFollow (')' :: s) := by
  show safeChar ')' = true; decide

theorem safeFollow_colon (s : List Char) : SafeFollow (':' :: s) := by
  show safeChar ':' = true; decide

theorem safeFollow_q (s : List Char) : SafeFollow ('?' :: s) := by
  show safeChar '?' = true; decide

theorem dump_head (t : PlfNode) (X : List Char) : PrimHead (dumpChars t ++ X) := by
  cases t with
  | var => show ('n' = '(' ∨ 'n' = 'n' ∨ isDigitB 'n' = true); right; left; rfl
  | bin op a b => show ('(' = '(' ∨ _); left; rfl
  | ter a b c => show ('(' = '(' ∨ _); left; rfl
  | lit v =>
    have hne := natChars_ne_nil v
    cases hnc : natChars v with
    | nil => exact absurd hnc hne
    | cons c rest =>
      have hd : isDigitB c = true := natChars_digits v c (by rw [hnc]; simp)
      show PrimHead (dumpChars (.lit v) ++ X)
      rw [show dumpChars (.lit v) = natChars v from rfl, hnc]
      exact Or.inr (Or.inr hd)

theorem except_map_map {ε α β γ : Type} (f : α → β) (g : β → γ) (x : Except ε α) :
    (x.map f).map g = x.map (fun a => g (f a)) := by
  cases x <;> rfl

/-- Lexing the dump of `t`, followed by a safe suffix, yields the canonical
token list `dtoksAt t p` followed by the lexing of the suffix. -/
theorem lex_dump : ∀ (t : PlfNode), litsOk t → ∀ (f p : Nat) (s : List Char),
    tcount t ≤ f → SafeFollow s →
    lexChars f (dumpChars t ++ s) p =
      (lexChars (f - tcount t) s (p + dlen t)).map (fun ts => dtoksAt t p ++ ts) := by
  intro t
  induction t with
  | lit v =>
    intro hl f p s hf hs
    obtain ⟨f1, rfl⟩ : ∃ f1, f = f1 + 1 := ⟨f - 1, by simp only [tcount] at hf; omega⟩
    rw [show dumpChars (.lit v) = natChars v from rfl,
      lex_digit_run (natChars_ne_nil v) (natChars_digits v) (safe_digit hs)
        (by rw [digitsToNat_natChars]; exact hl),
      digitsToNat_natChars]
    rw [show f1 + 1 - tcount (.lit v) = f1 from by simp only [tcount]; omega]
    rw [show (p : Nat) + (natChars v).length = p + dlen (.lit v) from rfl]
    congr 1
  | var =>
    intro _ f p s hf hs
    obtain ⟨f1, rfl⟩ : ∃ f1, f = f1 + 1 := ⟨f - 1, by simp only [tcount] at hf; omega⟩
    rw [show dumpChars .var ++ s = 'n' :: s from rfl, lex_var (safe_alpha hs)]
    rw [show f1 + 1 - tcount .var = f1 from by simp only [tcount]; omega]
    congr 1
  | bin op a b iha ihb =>
    intro hl f p s hf hs
    have hfc : tcount (.bin op a b) ≤ f := hf
    simp only [tcount] at hfc
    obtain ⟨f1, rfl⟩ : ∃ f1, f = f1 + 1 := ⟨f - 1, by omega⟩
    have hshape : dumpChars (.bin op a b) ++ s =
        '(' :: (dumpChars a ++ (opChars op ++ (dumpChars b ++ (')' :: s)))) := by
      simp [dumpChars, List.append_assoc]
    rw [hshape, lex_open]
    rw [iha hl.1 f1 (p + 1) _ (by omega) (safeFollow_op op _)]
    obtain ⟨f2, hf2⟩ : ∃ f2, f1 - tcount a = f2 + 1 := ⟨f1 - tcount a - 1, by omega⟩
    rw [hf2, lex_op op (dump_head b _)]
    rw [ihb hl.2 f2 _ _ (by omega) (safeFollow_close s)]
    obtain ⟨f3, hf3⟩ : ∃ f3, f2 - tcount b = f3 + 1 := ⟨f2 - tcount b - 1, by omega⟩
    rw [hf3, lex_close]
    rw [except_map_map, except_map_map, except_map_map, except_map_map]
    rw [show f3 = f1 + 1 - tcount (.bin op a b) from by simp only [tcount]; omega]
    rw [show p + 1 + dlen a + opLen op + dlen b + 1 = p + dlen (.bin op a b) from by
      simp only [dlen]; omega]
    congr 1
    funext ts
    simp [dtoksAt, List.append_assoc]
  | ter a b c iha ihb ihc =>
    intro hl f p s hf hs
    have hfc : tcount (.ter a b c) ≤ f := hf
    simp only [tcount] at hfc
    obtain ⟨f1, rfl⟩ : ∃ f1, f = f1 + 1 := ⟨f - 1, by omega⟩
    have hshape : dumpChars (.ter a b c) ++ s =
        '(' :: (dumpChars a ++ ('?' :: (dumpChars b ++ (':' :: (dumpChars c ++
          (')' :: s)))))) := by
      simp [dumpChars, List.append_assoc]
    rw [hshape, lex_open]
    rw [iha hl.1 f1 (p + 1) _ (by omega) (safeFollow_q _)]
    obtain ⟨f2, hf2⟩ : ∃ f2, f1 - tcount a = f2 + 1 := ⟨f1 - tcount a - 1, by omega⟩
    rw [hf2, lex_q]
    rw [ihb hl.2.1 f2 _ _ (by omega) (safeFollow_colon _)]
    obtain ⟨f3, hf3⟩ : ∃ f3, f2 - tcount b = f3 + 1 := ⟨f2 - tcount b - 1, by omega⟩
    rw [hf3, lex_colon]
    rw [ihc hl.2.2 f3 _ _ (by omega) (safeFollow_close s)]
    obtain ⟨f4, hf4⟩ : ∃ f4, f3 - tcount c = f4 + 1 := ⟨f3 - tcount c - 1, by omega⟩
    rw [hf4, lex_close]
    rw [except_map_map, except_map_map, except_map_map, except_map_map,
      except_map_map, except_map_map]
    rw [show f4 = f1 + 1 - tcount (.ter a b c) from by simp only [tcount]; omega]
    rw [show p + 1 + dlen a + 1 + dlen b + 1 + dlen c + 1 = p + dlen (.ter a b c) from by
      simp only [dlen]; omega]
    congr 1
    funext ts
    simp only [dtoksAt, List.append_assoc, List.cons_append, List.singleton_append]
    rw [show p + 1 + dlen a + 1 = p + 2 + dlen a from by omega]
    rw [show p + 2 + dlen a + dlen b + 1 = p + 3 + dlen a + dlen b from by omega]
    simp

/-! #### Parsing the canonical token list -/

theorem headNotIn_sub {r : Toks} {L L' : List Tok} (h : headNotIn r L)
    (hsub : ∀ x ∈ L', x ∈ L) : headNotIn r L' := by
  match r with
  | [] => trivial
  | (tok, q) :: rest =>
    have h' : tok ∉ L := h
    show tok ∉ L'
    intro hx
    exact h' (hsub _ hx)

theorem stopToks_headNotIn {r : Toks} (h : StopToks r) {L : List Tok}
    (h1 : Tok.tBrClose ∉ L) (h2 : Tok.tColon ∉ L) : headNotIn r L := by
  match r with
  | [] => trivial
  | (tok, q) :: rest =>
    rcases h with h | h <;> · show tok ∉ L; rw [h]; assumption

theorem pRun_modL_stop {f : Nat} {a : PlfNode} {ts : Toks} {eof : Nat}
    (hf : 1 ≤ f) (h : headNotIn ts [Tok.tMod]) :
    pRun f (.modL a) ts eof = .ok (a, ts) := by
  obtain ⟨g, rfl⟩ : ∃ g, f = g + 1 := ⟨f - 1, by omega⟩
  match ts with
  | [] => rfl
  | (tok, q) :: r =>
    have h' : tok ∉ [Tok.tMod] := h
    cases tok <;> first | rfl | exact absurd (by simp) h'

theorem pRun_cmpL_stop {f : Nat} {a : PlfNode} {ts : Toks} {eof : Nat}
    (hf : 1 ≤ f) (h : headNotIn ts [Tok.tGe, Tok.tGt, Tok.tLe, Tok.tLt]) :
    pRun f (.cmpL a) ts eof = .ok (a, ts) := by
  obtain ⟨g, rfl⟩ : ∃ g, f = g + 1 := ⟨f - 1, by omega⟩
  match ts with
  | [] => rfl
  | (tok, q) :: r =>
    have h' : tok ∉ [Tok.tGe, Tok.tGt, Tok.tLe, Tok.tLt] := h
    cases tok <;> first | rfl | exact absurd (by simp) h'

theorem pRun_eqL_stop {f : Nat} {a : PlfNode} {ts : Toks} {eof : Nat}
    (hf : 1 ≤ f) (h : headNotIn ts [Tok.tEq, Tok.tNeq]) :
    pRun f (.eqL a) ts eof = .ok (a, ts) := by
  obtain ⟨g, rfl⟩ : ∃ g, f = g + 1 := ⟨f - 1, by omega⟩
  match ts with
  | [] => rfl
  | (tok, q) :: r =>
    have h' : tok ∉ [Tok.tEq, Tok.tNeq] := h
    cases tok <;> first | rfl | exact absurd (by simp) h'

theorem pRun_mod_of {f : Nat} {ts r : Toks} {eof : Nat} {t : PlfNode}
    (h : pRun f .prim ts eof = .ok (t, r)) (hr : headNotIn r [Tok.tMod]) (hf : 1 ≤ f) :
    pRun (f + 1) .mod ts eof = .ok (t, r) := by
  simp only [pRun]
  rw [h]
  exact pRun_modL_stop hf hr

theorem pRun_cmp_of {f : Nat} {ts r : Toks} {eof : Nat} {t : PlfNode}
    (h : pRun f .mod ts eof = .ok (t, r))
    (hr : headNotIn r [Tok.tGe, Tok.tGt, Tok.tLe, Tok.tLt]) (hf : 1 ≤ f) :
    pRun (f + 1) .cmp ts eof = .ok (t, r) := by
  simp only [pRun]
  rw [h]
  exact pRun_cmpL_stop hf hr

theorem pRun_eq_of {f : Nat} {ts r : Toks} {eof : Nat} {t : PlfNode}
    (h : pRun f .cmp ts eof = .ok (t, r))
    (hr : headNotIn r [Tok.tEq, Tok.tNeq]) (hf : 1 ≤ f) :
    pRun (f + 1) .eq ts eof = .ok (t, r) := by
  simp only [pRun]
  rw [h]
  exact pRun_eqL_stop hf hr

theorem pRun_and_of {f : Nat} {ts r : Toks} {eof : Nat} {t : PlfNode}
    (h : pRun f .eq ts eof = .ok (t, r)) (hr : headNotIn r [Tok.tAnd]) :
    pRun (f + 1) .and ts eof = .ok (t, r) := by
  simp only [pRun]
  rw [h]
  match r, hr with
  | [], _ => rfl
  | (tok, q) :: r', hr =>
    have h' : tok ∉ [Tok.tAnd] := hr
    cases tok <;> first | rfl | exact absurd (by simp) h'

theorem pRun_or_of {f : Nat} {ts r : Toks} {eof : Nat} {t : PlfNode}
    (h : pRun f .and ts eof = .ok (t, r)) (hr : headNotIn r [Tok.tOr]) :
    pRun (f + 1) .or ts eof = .ok (t, r) := by
  simp only [pRun]
  rw [h]
  match r, hr with
  | [], _ => rfl
  | (tok, q) :: r', hr =>
    have h' : tok ∉ [Tok.tOr] := hr
    cases tok <;> first | rfl | exact absurd (by simp) h'

theorem pRun_tern_of {f : Nat} {ts r : Toks} {eof : Nat} {t : PlfNode}
    (h : pRun f .or ts eof = .ok (t, r)) (hr : headNotIn r [Tok.tQ]) :
    pRun (f + 1) .tern ts eof = .ok (t, r) := by
  simp only [pRun]
  rw [h]
  match r, hr with
  | [], _ => rfl
  | (tok, q) :: r', hr =>
    have h' : tok ∉ [Tok.tQ] := hr
    cases tok <;> first | rfl | exact absurd (by simp) h'

/-! One-step composition lemmas: each one runs a single `pRun` level with the
results of its sub-parses supplied as hypotheses. -/

theorem pRun_primBr_combine {f p q : Nat} {rest r2 : Toks} {eof : Nat} {t : PlfNode}
    (h : pRun f .tern rest eof = .ok (t, (Tok.tBrClose, q) :: r2)) :
    pRun (f + 1) .prim ((Tok.tBrOpen, p) :: rest) eof = .ok (t, r2) := by
  simp only [pRun, h]

theorem pRun_mod_combine {f : Nat} {ts r : Toks} {eof : Nat} {a : PlfNode}
    {x : PlfNode × Toks}
    (h1 : pRun f .prim ts eof = .ok (a, r)) (h2 : pRun f (.modL a) r eof = .ok x) :
    pRun (f + 1) .mod ts eof = .ok x := by
  simp only [pRun, h1, h2]

theorem pRun_modL_combine {f q : Nat} {r r2 : Toks} {eof : Nat} {a b : PlfNode}
    {x : PlfNode × Toks}
    (h1 : pRun f .prim r eof = .ok (b, r2))
    (h2 : pRun f (.modL (PlfNode.bin PlfOp.Mod a b)) r2 eof = .ok x) :
    pRun (f + 1) (.modL a) ((Tok.tMod, q) :: r) eof = .ok x := by
  simp only [pRun, h1, h2]

theorem pRun_cmp_combine {f : Nat} {ts r : Toks} {eof : Nat} {a : PlfNode}
    {x : PlfNode × Toks}
    (h1 : pRun f .mod ts eof = .ok (a, r)) (h2 : pRun f (.cmpL a) r eof = .ok x) :
    pRun (f + 1) .cmp ts eof = .ok x := by
  simp only [pRun, h1, h2]

theorem pRun_cmpL_combineGe {f q : Nat} {r r2 : Toks} {eof : Nat} {a b : PlfNode}
    {x : PlfNode × Toks}
    (h1 : pRun f .mod r eof = .ok (b, r2))
    (h2 : pRun f (.cmpL (PlfNode.bin PlfOp.GreaterEq a b)) r2 eof = .ok x) :
    pRun (f + 1) (.cmpL a) ((Tok.tGe, q) :: r) eof = .ok x := by
  simp only [pRun, h1, h2]

theorem pRun_cmpL_combineGt {f q : Nat} {r r2 : Toks} {eof : Nat} {a b : PlfNode}
    {x : PlfNode × Toks}
    (h1 : pRun f .mod r eof = .ok (b, r2))
    (h2 : pRun f (.cmpL (PlfNode.bin PlfOp.Greater a b)) r2 eof = .ok x) :
    pRun (f + 1) (.cmpL a) ((Tok.tGt, q) :: r) eof = .ok x := by
  simp only [pRun, h1, h2]

theorem pRun_cmpL_combineLe {f q : Nat} {r r2 : Toks} {eof : Nat} {a b : PlfNode}
    {x : PlfNode × Toks}
    (h1 : pRun f .mod r eof = .ok (b, r2))
    (h2 : pRun f (.cmpL (PlfNode.bin PlfOp.LessEq a b)) r2 eof = .ok x) :
    pRun (f + 1) (.cmpL a) ((Tok.tLe, q) :: r) eof = .ok x := by
  simp only [pRun, h1, h2]

theorem pRun_cmpL_combineLt {f q : Nat} {r r2 : Toks} {eof : Nat} {a b : PlfNode}
    {x : PlfNode × Toks}
    (h1 : pRun f .mod r eof = .ok (b, r2))
    (h2 : pRun f (.cmpL (PlfNode.bin PlfOp.Less a b)) r2 eof = .ok x) :
    pRun (f + 1) (.cmpL a) ((Tok.tLt, q) :: r) eof = .ok x := by
  simp only [pRun, h1, h2]

theorem pRun_eq_combine {f : Nat} {ts r : Toks} {eof : Nat} {a : PlfNode}
    {x : PlfNode × Toks}
    (h1 : pRun f .cmp ts eof = .ok (a, r)) (h2 : pRun f (.eqL a) r eof = .ok x) :
    pRun (f + 1) .eq ts eof = .ok x := by
  simp only [pRun, h1, h2]

theorem pRun_eqL_combineEq {f q : Nat} {r r2 : Toks} {eof : Nat} {a b : PlfNode}
    {x : PlfNode × Toks}
    (h1 : pRun f .cmp r eof = .ok (b, r2))
    (h2 : pRun f (.eqL (PlfNode.bin PlfOp.Eq a b)) r2 eof = .ok x) :
    pRun (f + 1) (.eqL a) ((Tok.tEq, q) :: r) eof = .ok x := by
  simp only [pRun, h1, h2]

theorem pRun_eqL_combineNeq {f q : Nat} {r r2 : Toks} {eof : Nat} {a b : PlfNode}
    {x : PlfNode × Toks}
    (h1 : pRun f .cmp r eof = .ok (b, r2))
    (h2 : pRun f (.eqL (PlfNode.bin PlfOp.NotEq a b)) r2 eof = .ok x) :
    pRun (f + 1) (.eqL a) ((Tok.tNeq, q) :: r) eof = .ok x := by
  simp only [pRun, h1, h2]

theorem pRun_and_combine {f q : Nat} {ts r r2 : Toks} {eof : Nat} {a b : PlfNode}
    (h1 : pRun f .eq ts eof = .ok (a, (Tok.tAnd, q) :: r))
    (h2 : pRun f .and r eof = .ok (b, r2)) :
    pRun (f + 1) .and ts eof = .ok (PlfNode.bin PlfOp.And a b, r2) := by
  simp only [pRun, h1, h2]

theorem pRun_or_combine {f q : Nat} {ts r r2 : Toks} {eof : Nat} {a b : PlfNode}
    (h1 : pRun f .and ts eof = .ok (a, (Tok.tOr, q) :: r))
    (h2 : pRun f .or r eof = .ok (b, r2)) :
    pRun (f + 1) .or ts eof = .ok (PlfNode.bin PlfOp.Or a b, r2) := by
  simp only [pRun, h1, h2]

theorem pRun_tern_combine {f q q2 : Nat} {ts r r2 r3 : Toks} {eof : Nat}
    {a b c : PlfNode}
    (h1 : pRun f .or ts eof = .ok (a, (Tok.tQ, q) :: r))
    (h2 : pRun f .tern r eof = .ok (b, (Tok.tColon, q2) :: r2))
    (h3 : pRun f .tern r2 eof = .ok (c, r3)) :
    pRun (f + 1) .tern ts eof = .ok (PlfNode.ter a b c, r3) := by
  simp only [pRun, h1, h2, h3]

/-! Reconstruction of a binary node from its decorated inner tokens, at the
ternary level, with an arbitrary stop tail. -/

theorem pRun_tern_binArg {a b : PlfNode} (op : PlfOp)
    (ha : ∀ p f r eof, 16 * tcount a ≤ f → pRun f .prim (dtoksAt a p ++ r) eof = .ok (a, r))
    (hb : ∀ p f r eof, 16 * tcount b ≤ f → pRun f .prim (dtoksAt b p ++ r) eof = .ok (b, r)) :
    ∀ (pa qa pb f : Nat) (s : Toks) (eof : Nat), StopToks s →
      16 * (tcount a + tcount b) + 9 ≤ f →
      pRun f .tern (dtoksAt a pa ++ (opTok op, qa) :: (dtoksAt b pb ++ s)) eof =
        .ok (PlfNode.bin op a b, s) := by
  intro pa qa pb f s eof hs hf
  obtain ⟨m, rfl⟩ : ∃ m, f = m + 7 := ⟨f - 7, by omega⟩
  have hsm : headNotIn s [Tok.tMod] := stop_headNotIn hs (by simp) (by simp)
  have hsc : headNotIn s [Tok.tGe, Tok.tGt, Tok.tLe, Tok.tLt] :=
    stop_headNotIn hs (by simp) (by simp)
  have hse : headNotIn s [Tok.tEq, Tok.tNeq] := stop_headNotIn hs (by simp) (by simp)
  have hsa : headNotIn s [Tok.tAnd] := stop_headNotIn hs (by simp) (by simp)
  have hso : headNotIn s [Tok.tOr] := stop_headNotIn hs (by simp) (by simp)
  have hsq : headNotIn s [Tok.tQ] := stop_headNotIn hs (by simp) (by simp)
  cases op with
  | Mod =>
    have hmod : pRun (m + 2) .mod
        (dtoksAt a pa ++ (Tok.tMod, qa) :: (dtoksAt b pb ++ s)) eof =
        .ok (PlfNode.bin PlfOp.Mod a b, s) :=
      pRun_mod_combine (ha pa (m + 1) ((Tok.tMod, qa) :: (dtoksAt b pb ++ s)) eof (by omega))
        (pRun_modL_combine (hb pb m s eof (by omega)) (pRun_modL_stop (by omega) hsm))
    exact pRun_tern_of (pRun_or_of (pRun_and_of
      (pRun_eq_of (pRun_cmp_of hmod hsc (by omega)) hse (by omega)) hsa) hso) hsq
  | GreaterEq =>
    have hcmp : pRun (m + 3) .cmp
        (dtoksAt a pa ++ (Tok.tGe, qa) :: (dtoksAt b pb ++ s)) eof =
        .ok (PlfNode.bin PlfOp.GreaterEq a b, s) :=
      pRun_cmp_combine
        (pRun_mod_of (ha pa (m + 1) ((Tok.tGe, qa) :: (dtoksAt b pb ++ s)) eof (by omega))
          (by simp [headNotIn]) (by omega))
        (pRun_cmpL_combineGe (pRun_mod_of (hb pb m s eof (by omega)) hsm (by omega))
          (pRun_cmpL_stop (by omega) hsc))
    exact pRun_tern_of (pRun_or_of (pRun_and_of
      (pRun_eq_of hcmp hse (by omega)) hsa) hso) hsq
  | Greater =>
    have hcmp : pRun (m + 3) .cmp
        (dtoksAt a pa ++ (Tok.tGt, qa) :: (dtoksAt b pb ++ s)) eof =
        .ok (PlfNode.bin PlfOp.Greater a b, s) :=
      pRun_cmp_combine
        (pRun_mod_of (ha pa (m + 1) ((Tok.tGt, qa) :: (dtoksAt b pb ++ s)) eof (by omega))
          (by simp [headNotIn]) (by omega))
        (pRun_cmpL_combineGt (pRun_mod_of (hb pb m s eof (by omega)) hsm (by omega))
          (pRun_cmpL_stop (by omega) hsc))
    exact pRun_tern_of (pRun_or_of (pRun_and_of
      (pRun_eq_of hcmp hse (by omega)) hsa) hso) hsq
  | LessEq =>
    have hcmp : pRun (m + 3) .cmp
        (dtoksAt a pa ++ (Tok.tLe, qa) :: (dtoksAt b pb ++ s)) eof =
        .ok (PlfNode.bin PlfOp.LessEq a b, s) :=
      pRun_cmp_combine
        (pRun_mod_of (ha pa (m + 1) ((Tok.tLe, qa) :: (dtoksAt b pb ++ s)) eof (by omega))
          (by simp [headNotIn]) (by omega))
        (pRun_cmpL_combineLe (pRun_mod_of (hb pb m s eof (by omega)) hsm (by omega))
          (pRun_cmpL_stop (by omega) hsc))
    exact pRun_tern_of (pRun_or_of (pRun_and_of
      (pRun_eq_of hcmp hse (by omega)) hsa) hso) hsq
  | Less =>
    have hcmp : pRun (m + 3) .cmp
        (dtoksAt a pa ++ (Tok.tLt, qa) :: (dtoksAt b pb ++ s)) eof =
        .ok (PlfNode.bin PlfOp.Less a b, s) :=
      pRun_cmp_combine
        (pRun_mod_of (ha pa (m + 1) ((Tok.tLt, qa) :: (dtoksAt b pb ++ s)) eof (by omega))
          (by simp [headNotIn]) (by omega))
        (pRun_cmpL_combineLt (pRun_mod_of (hb pb m s eof (by omega)) hsm (by omega))
          (pRun_cmpL_stop (by omega) hsc))
    exact pRun_tern_of (pRun_or_of (pRun_and_of
      (pRun_eq_of hcmp hse (by omega)) hsa) hso) hsq
  | Eq =>
    have heq : pRun (m + 4) .eq
        (dtoksAt a pa ++ (Tok.tEq, qa) :: (dtoksAt b pb ++ s)) eof =
        .ok (PlfNode.bin PlfOp.Eq a b, s) :=
      pRun_eq_combine
        (pRun_cmp_of (pRun_mod_of
            (ha pa (m + 1) ((Tok.tEq, qa) :: (dtoksAt b pb ++ s)) eof (by omega))
            (by simp [headNotIn]) (by omega))
          (by simp [headNotIn]) (by omega))
        (pRun_eqL_combineEq
          (pRun_cmp_of (pRun_mod_of (hb pb m s eof (by omega)) hsm (by omega)) hsc (by omega))
          (pRun_eqL_stop (by omega) hse))
    exact pRun_tern_of (pRun_or_of (pRun_and_of heq hsa) hso) hsq
  | NotEq =>
    have heq : pRun (m + 4) .eq
        (dtoksAt a pa ++ (Tok.tNeq, qa) :: (dtoksAt b pb ++ s)) eof =
        .ok (PlfNode.bin PlfOp.NotEq a b, s) :=
      pRun_eq_combine
        (pRun_cmp_of (pRun_mod_of
            (ha pa (m + 1) ((Tok.tNeq, qa) :: (dtoksAt b pb ++ s)) eof (by omega))
            (by simp [headNotIn]) (by omega))
          (by simp [headNotIn]) (by omega))
        (pRun_eqL_combineNeq
          (pRun_cmp_of (pRun_mod_of (hb pb m s eof (by omega)) hsm (by omega)) hsc (by omega))
          (pRun_eqL_stop (by omega) hse))
    exact pRun_tern_of (pRun_or_of (pRun_and_of heq hsa) hso) hsq
  | And =>
    have hand : pRun (m + 5) .and
        (dtoksAt a pa ++ (Tok.tAnd, qa) :: (dtoksAt b pb ++ s)) eof =
        .ok (PlfNode.bin PlfOp.And a b, s) :=
      pRun_and_combine
        (pRun_eq_of (pRun_cmp_of (pRun_mod_of
              (ha pa (m + 1) ((Tok.tAnd, qa) :: (dtoksAt b pb ++ s)) eof (by omega))
              (by simp [headNotIn]) (by omega))
            (by simp [headNotIn]) (by omega))
          (by simp [headNotIn]) (by omega))
        (pRun_and_of (pRun_eq_of (pRun_cmp_of
              (pRun_mod_of (hb pb m s eof (by omega)) hsm (by omega)) hsc (by omega))
            hse (by omega)) hsa)
    exact pRun_tern_of (pRun_or_of hand hso) hsq
  | Or =>
    have hor : pRun (m + 6) .or
        (dtoksAt a pa ++ (Tok.tOr, qa) :: (dtoksAt b pb ++ s)) eof =
        .ok (PlfNode.bin PlfOp.Or a b, s) :=
      pRun_or_combine
        (pRun_and_of (pRun_eq_of (pRun_cmp_of (pRun_mod_of
                (ha pa (m + 1) ((Tok.tOr, qa) :: (dtoksAt b pb ++ s)) eof (by omega))
                (by simp [headNotIn]) (by omega))
              (by simp [headNotIn]) (by omega))
            (by simp [headNotIn]) (by omega))
          (by simp [headNotIn]))
        (pRun_or_of (pRun_and_of (pRun_eq_of (pRun_cmp_of
              (pRun_mod_of (hb pb m s eof (by omega)) hsm (by omega)) hsc (by omega))
            hse (by omega)) hsa) hso)
    exact pRun_tern_of hor hsq

/-! Reconstruction of a ternary node from its decorated inner tokens. -/

theorem pRun_tern_terArg {a b c : PlfNode}
    (ha : ∀ p f r eof, 16 * tcount a ≤ f → pRun f .prim (dtoksAt a p ++ r) eof = .ok (a, r))
    (hb : ∀ p f r eof, 16 * tcount b ≤ f → pRun f .prim (dtoksAt b p ++ r) eof = .ok (b, r))
    (hc : ∀ p f r eof, 16 * tcount c ≤ f → pRun f .prim (dtoksAt c p ++ r) eof = .ok (c, r)) :
    ∀ (pa qa pb qb pc f : Nat) (s : Toks) (eof : Nat), StopToks s →
      16 * (tcount a + tcount b + tcount c) + 9 ≤ f →
      pRun f .tern (dtoksAt a pa ++ (Tok.tQ, qa) ::
          (dtoksAt b pb ++ (Tok.tColon, qb) :: (dtoksAt c pc ++ s))) eof =
        .ok (PlfNode.ter a b c, s) := by
  intro pa qa pb qb pc f s eof hs hf
  obtain ⟨m, rfl⟩ : ∃ m, f = m + 7 := ⟨f - 7, by omega⟩
  have hsm : headNotIn s [Tok.tMod] := stop_headNotIn hs (by simp) (by simp)
  have hsc : headNotIn s [Tok.tGe, Tok.tGt, Tok.tLe, Tok.tLt] :=
    stop_headNotIn hs (by simp) (by simp)
  have hse : headNotIn s [Tok.tEq, Tok.tNeq] := stop_headNotIn hs (by simp) (by simp)
  have hsa : headNotIn s [Tok.tAnd] := stop_headNotIn hs (by simp) (by simp)
  have hso : headNotIn s [Tok.tOr] := stop_headNotIn hs (by simp) (by simp)
  have hsq : headNotIn s [Tok.tQ] := stop_headNotIn hs (by simp) (by simp)
  have hA : pRun (m + 6) .or
      (dtoksAt a pa ++ (Tok.tQ, qa) ::
        (dtoksAt b pb ++ (Tok.tColon, qb) :: (dtoksAt c pc ++ s))) eof =
      .ok (a, (Tok.tQ, qa) :: (dtoksAt b pb ++ (Tok.tColon, qb) :: (dtoksAt c pc ++ s))) :=
    pRun_or_of (pRun_and_of (pRun_eq_of (pRun_cmp_of (pRun_mod_of
              (ha pa (m + 1)
                ((Tok.tQ, qa) :: (dtoksAt b pb ++ (Tok.tColon, qb) :: (dtoksAt c pc ++ s)))
                eof (by omega))
              (by simp [headNotIn]) (by omega))
            (by simp [headNotIn]) (by omega))
          (by simp [headNotIn]) (by omega))
        (by simp [headNotIn]))
      (by simp [headNotIn])
  have hB : pRun (m + 6) .tern
      (dtoksAt b pb ++ (Tok.tColon, qb) :: (dtoksAt c pc ++ s)) eof =
      .ok (b, (Tok.tColon, qb) :: (dtoksAt c pc ++ s)) :=
    pRun_tern_of (pRun_or_of (pRun_and_of (pRun_eq_of (pRun_cmp_of (pRun_mod_of
                (hb pb m ((Tok.tColon, qb) :: (dtoksAt c pc ++ s)) eof (by omega))
                (by simp [headNotIn]) (by omega))
              (by simp [headNotIn]) (by omega))
            (by simp [headNotIn]) (by omega))
          (by simp [headNotIn]))
        (by simp [headNotIn]))
      (by simp [headNotIn])
  have hC : pRun (m + 6) .tern (dtoksAt c pc ++ s) eof = .ok (c, s) :=
    pRun_tern_of (pRun_or_of (pRun_and_of (pRun_eq_of (pRun_cmp_of
            (pRun_mod_of (hc pc m s eof (by omega)) hsm (by omega)) hsc (by omega))
          hse (by omega)) hsa) hso) hsq
  exact pRun_tern_combine hA hB hC

/-- The parser reconstructs every node from the token list of its dump: at the
primary level, the dump tokens followed by any rest parse back to the node. -/
theorem pRun_prim_dump : ∀ (t : PlfNode) (p f : Nat) (r : Toks) (eof : Nat),
    16 * tcount t ≤ f → pRun f .prim (dtoksAt t p ++ r) eof = .ok (t, r) := by
  intro t
  induction t with
  | lit v =>
    intro p f r eof hf
    obtain ⟨g, rfl⟩ : ∃ g, f = g + 1 := ⟨f - 1, by simp [tcount] at hf; omega⟩
    rfl
  | var =>
    intro p f r eof hf
    obtain ⟨g, rfl⟩ : ∃ g, f = g + 1 := ⟨f - 1, by simp [tcount] at hf; omega⟩
    rfl
  | bin op a b iha ihb =>
    intro p f r eof hf
    obtain ⟨g, rfl⟩ : ∃ g, f = g + 1 := ⟨f - 1, by simp [tcount] at hf; omega⟩
    have hB := pRun_tern_binArg op iha ihb (p + 1) (p + 1 + dlen a)
      (p + 1 + dlen a + opLen op) g
      ((Tok.tBrClose, p + 1 + dlen a + opLen op + dlen b) :: r) eof (Or.inl rfl)
      (by simp only [tcount] at hf; omega)
    have hshape : dtoksAt (PlfNode.bin op a b) p ++ r =
        (Tok.tBrOpen, p) :: (dtoksAt a (p + 1) ++ (opTok op, p + 1 + dlen a) ::
          (dtoksAt b (p + 1 + dlen a + opLen op) ++
            (Tok.tBrClose, p + 1 + dlen a + opLen op + dlen b) :: r)) := by
      simp [dtoksAt]
    rw [hshape]
    exact pRun_primBr_combine hB
  | ter a b c iha ihb ihc =>
    intro p f r eof hf
    obtain ⟨g, rfl⟩ : ∃ g, f = g + 1 := ⟨f - 1, by simp [tcount] at hf; omega⟩
    have hB := pRun_tern_terArg iha ihb ihc (p + 1) (p + 1 + dlen a) (p + 2 + dlen a)
      (p + 2 + dlen a + dlen b) (p + 3 + dlen a + dlen b) g
      ((Tok.tBrClose, p + 3 + dlen a + dlen b + dlen c) :: r) eof (Or.inl rfl)
      (by simp only [tcount] at hf; omega)
    have hshape : dtoksAt (PlfNode.ter a b c) p ++ r =
        (Tok.tBrOpen, p) :: (dtoksAt a (p + 1) ++ (Tok.tQ, p + 1 + dlen a) ::
          (dtoksAt b (p + 2 + dlen a) ++ (Tok.tColon, p + 2 + dlen a + dlen b) ::
            (dtoksAt c (p + 3 + dlen a + dlen b) ++
              (Tok.tBrClose, p + 3 + dlen a + dlen b + dlen c) :: r))) := by
      simp [dtoksAt]
    rw [hshape]
    exact pRun_primBr_combine hB

theorem tcount_le_dlen (t : PlfNode) : tcount t ≤ dlen t := by
  induction t with
  | lit v =>
    have h : natChars v ≠ [] := natChars_ne_nil v
    have := List.length_pos.mpr h
    simp only [tcount, dlen]
    omega
  | var => exact le_refl 1
  | bin op a b iha ihb =>
    have hop : 1 ≤ opLen op := by cases op <;> decide
    simp only [tcount, dlen]
    omega
  | ter a b c iha ihb ihc =>
    simp only [tcount, dlen]
    omega

theorem lexChars_nil {f p : Nat} (hf : 1 ≤ f) : lexChars f [] p = .ok [] := by
  obtain ⟨g, rfl⟩ : ∃ g, f = g + 1 := ⟨f - 1, by omega⟩
  rfl

theorem tcount_pos (t : PlfNode) : 1 ≤ tcount t := by
  cases t <;> simp only [tcount] <;> omega

/-- At the ternary level, the full token list of a dump parses back to the
node with nothing left over. -/
theorem pRun_tern_dump_nil (t : PlfNode) (f eof : Nat)
    (hf : 16 * tcount t + 6 ≤ f) : pRun f .tern (dtoksAt t 0) eof = .ok (t, []) := by
  have htp : 1 ≤ tcount t := tcount_pos t
  obtain ⟨m, rfl⟩ : ∃ m, f = m + 6 := ⟨f - 6, by omega⟩
  rw [← List.append_nil (dtoksAt t 0)]
  exact pRun_tern_of (pRun_or_of (pRun_and_of
    (pRun_eq_of (pRun_cmp_of
        (pRun_mod_of (pRun_prim_dump t 0 m [] eof (by omega)) trivial (by omega))
        trivial (by omega))
      trivial (by omega))
    trivial) trivial) trivial

/-- Round trip: the debug dump of any node with u32-sized literals parses
back to exactly that node. -/
theorem parse_dump (t : PlfNode) (h : litsOk t) :
    parse_plural_rules (PlfNode.debug_dump t) = .ok t := by
  have htc : tcount t ≤ dlen t := tcount_le_dlen t
  have hdl : (dumpChars t).length = dlen t := dumpChars_length t
  have hlex0 := lex_dump t h ((dumpChars t).length + 1) 0 [] (by omega) trivial
  rw [List.append_nil] at hlex0
  rw [lexChars_nil (by omega)] at hlex0
  simp only [Except.map, List.append_nil] at hlex0
  have hts : lexChars ((dumpChars t).length + 1) (dumpChars t) 0 = .ok (dtoksAt t 0) := hlex0
  show parse_plural_rules (String.mk (dumpChars t)) = .ok t
  simp only [parse_plural_rules]
  simp only [hts]
  have hlen : (dtoksAt t 0).length = tcount t := dtoks_length t 0
  have hp := pRun_tern_dump_nil t (16 * (dtoksAt t 0).length + 16) (dumpChars t).length
    (by rw [hlen]; omega)
  simp only [hp]

/-! #### Output invariants: lexed literals fit in u32, parsed ASTs have
u32-sized literals -/

theorem toksOk_tail {x : Tok × Nat} {ts : Toks} (h : toksOk (x :: ts)) : toksOk ts :=
  fun v q hm => h v q (List.mem_cons_of_mem _ hm)

theorem toksOk_cons {tok : Tok} {q : Nat} {ts : Toks}
    (h1 : ∀ v, tok = Tok.tLit v → v ≤ u32max) (h2 : toksOk ts) :
    toksOk ((tok, q) :: ts) := by
  intro v q2 hm
  rcases List.mem_cons.mp hm with hm | hm
  · have hfst : Tok.tLit v = tok := congrArg Prod.fst hm
    exact h1 v hfst.symm
  · exact h2 v q2 hm

theorem except_map_ok_inv {e : Except String Toks} {g : Toks → Toks} {b : Toks}
    (h : Except.map g e = .ok b) : ∃ a, e = .ok a ∧ b = g a := by
  match e with
  | .ok a =>
    refine ⟨a, rfl, ?_⟩
    have h2 : (Except.ok (g a) : Except String Toks) = Except.ok b := h
    injection h2 with h3
    exact h3.symm
  | .error s => exact absurd h (by simp [Except.map])

/-- Lexer output invariant: every literal token the lexer produces fits in
u32 (the lexer rejects larger literals). -/
theorem lexChars_toksOk : ∀ f cs p ts, lexChars f cs p = .ok ts → toksOk ts := by
  intro f
  induction f with
  | zero =>
    intro cs p ts h
    exact absurd h (by simp [lexChars])
  | succ f ih =>
    intro cs p ts h
    match cs with
    | [] =>
      simp only [lexChars, Except.ok.injEq] at h
      subst h
      exact fun v q hm => absurd hm (List.not_mem_nil _)
    | c :: cs2 =>
      simp only [lexChars] at h
      by_cases h1 : c = ' ' ∨ c = '\t' ∨ c = '\n'
      · rw [if_pos h1] at h
        exact ih _ _ _ h
      rw [if_neg h1] at h
      by_cases h2 : c = '%'
      · rw [if_pos h2] at h
        obtain ⟨ts0, he, rfl⟩ := except_map_ok_inv h
        exact toksOk_cons (fun v hv => Tok.noConfusion hv) (ih _ _ _ he)
      rw [if_neg h2] at h
      by_cases h3 : c = '('
      · rw [if_pos h3] at h
        obtain ⟨ts0, he, rfl⟩ := except_map_ok_inv h
        exact toksOk_cons (fun v hv => Tok.noConfusion hv) (ih _ _ _ he)
      rw [if_neg h3] at h
      by_cases h4 : c = ')'
      · rw [if_pos h4] at h
        obtain ⟨ts0, he, rfl⟩ := except_map_ok_inv h
        exact toksOk_cons (fun v hv => Tok.noConfusion hv) (ih _ _ _ he)
      rw [if_neg h4] at h
      by_cases h5 : c = '?'
      · rw [if_pos h5] at h
        obtain ⟨ts0, he, rfl⟩ := except_map_ok_inv h
        exact toksOk_cons (fun v hv => Tok.noConfusion hv) (ih _ _ _ he)
      rw [if_neg h5] at h
      by_cases h6 : c = ':'
      · rw [if_pos h6] at h
        obtain ⟨ts0, he, rfl⟩ := except_map_ok_inv h
        exact toksOk_cons (fun v hv => Tok.noConfusion hv) (ih _ _ _ he)
      rw [if_neg h6] at h
      by_cases h7 : c = '='
      · rw [if_pos h7] at h
        split at h
        · obtain ⟨ts0, he, rfl⟩ := except_map_ok_inv h
          exact toksOk_cons (fun v hv => Tok.noConfusion hv) (ih _ _ _ he)
        · exact absurd h (by simp)
      rw [if_neg h7] at h
      by_cases h8 : c = '!'
      · rw [if_pos h8] at h
        split at h
        · obtain ⟨ts0, he, rfl⟩ := except_map_ok_inv h
          exact toksOk_cons (fun v hv => Tok.noConfusion hv) (ih _ _ _ he)
        · exact absurd h (by simp)
      rw [if_neg h8] at h
      by_cases h9 : c = '&'
      · rw [if_pos h9] at h
        split at h
        · obtain ⟨ts0, he, rfl⟩ := except_map_ok_inv h
          exact toksOk_cons (fun v hv => Tok.noConfusion hv) (ih _ _ _ he)
        · exact absurd h (by simp)
      rw [if_neg h9] at h
      by_cases h10 : c = '|'
      · rw [if_pos h10] at h
        split at h
        · obtain ⟨ts0, he, rfl⟩ := except_map_ok_inv h
          exact toksOk_cons (fun v hv => Tok.noConfusion hv) (ih _ _ _ he)
        · exact absurd h (by simp)
      rw [if_neg h10] at h
      by_cases h11 : c = '>'
      · rw [if_pos h11] at h
        split at h
        all_goals
          obtain ⟨ts0, he, rfl⟩ := except_map_ok_inv h
          exact toksOk_cons (fun v hv => Tok.noConfusion hv) (ih _ _ _ he)
      rw [if_neg h11] at h
      by_cases h12 : c = '<'
      · rw [if_pos h12] at h
        split at h
        all_goals
          obtain ⟨ts0, he, rfl⟩ := except_map_ok_inv h
          exact toksOk_cons (fun v hv => Tok.noConfusion hv) (ih _ _ _ he)
      rw [if_neg h12] at h
      by_cases h13 : isDigitB c = true
      · rw [if_pos h13] at h
        split at h
        · rename_i hvle
          obtain ⟨ts0, he, rfl⟩ := except_map_ok_inv h
          refine toksOk_cons (fun v hv => ?_) (ih _ _ _ he)
          injection hv with h14
          exact h14 ▸ hvle
        · exact absurd h (by simp)
      rw [if_neg h13] at h
      by_cases h15 : c.isAlpha = true
      · rw [if_pos h15] at h
        split at h
        · obtain ⟨ts0, he, rfl⟩ := except_map_ok_inv h
          exact toksOk_cons (fun v hv => Tok.noConfusion hv) (ih _ _ _ he)
        · exact absurd h (by simp)
      rw [if_neg h15] at h
      exact absurd h (by simp)

/-- Invariant carried by the accumulator of a parser loop level. -/
def lvlOk : PLevel → Prop
  | .modL a => litsOk a
  | .cmpL a => litsOk a
  | .eqL a => litsOk a
  | _ => True

/-- Parser output invariant: on u32-clean input tokens, every parsed node has
u32-sized literals and the leftover tokens remain u32-clean. -/
theorem pRun_litsOk : ∀ f lvl ts eof t r, lvlOk lvl → toksOk ts →
    pRun f lvl ts eof = .ok (t, r) → litsOk t ∧ toksOk r := by
  intro f
  induction f with
  | zero =>
    intro lvl ts eof t r _ _ h
    exact absurd h (by simp [pRun])
  | succ f ih =>
    intro lvl ts eof t r hl hts h
    match lvl with
    | .prim =>
      match ts with
      | [] => exact absurd h (by simp [pRun])
      | (tok, q) :: ts2 =>
        match tok with
        | Tok.tVar =>
          simp only [pRun, Except.ok.injEq, Prod.mk.injEq] at h
          obtain ⟨rfl, rfl⟩ := h
          exact ⟨trivial, toksOk_tail hts⟩
        | Tok.tLit v =>
          simp only [pRun, Except.ok.injEq, Prod.mk.injEq] at h
          obtain ⟨rfl, rfl⟩ := h
          exact ⟨hts v q (by simp), toksOk_tail hts⟩
        | Tok.tBrOpen =>
          rcases hE : pRun f .tern ts2 eof with e | ⟨t0, r0⟩
          · simp only [pRun, hE] at h
            exact Except.noConfusion h
          · match r0 with
            | [] =>
              simp only [pRun, hE] at h
              exact Except.noConfusion h
            | (tok2, q2) :: r2 =>
              match tok2 with
              | Tok.tBrClose =>
                simp only [pRun, hE, Except.ok.injEq, Prod.mk.injEq] at h
                obtain ⟨rfl, rfl⟩ := h
                have h1 := ih .tern ts2 eof t0 ((Tok.tBrClose, q2) :: r2) trivial
                  (toksOk_tail hts) hE
                exact ⟨h1.1, toksOk_tail h1.2⟩
              | Tok.tMod | Tok.tEq | Tok.tNeq | Tok.tGe | Tok.tGt | Tok.tLe | Tok.tLt
              | Tok.tAnd | Tok.tOr | Tok.tQ | Tok.tColon | Tok.tBrOpen | Tok.tVar =>
                simp only [pRun, hE] at h
                exact Except.noConfusion h
              | Tok.tLit v =>
                simp only [pRun, hE] at h
                exact Except.noConfusion h
        | Tok.tMod | Tok.tEq | Tok.tNeq | Tok.tGe | Tok.tGt | Tok.tLe | Tok.tLt
        | Tok.tAnd | Tok.tOr | Tok.tQ | Tok.tColon | Tok.tBrClose =>
          exact absurd h (by simp [pRun])
    | .mod =>
      rcases hE : pRun f .prim ts eof with e | ⟨a, r0⟩
      · simp only [pRun, hE] at h
        exact Except.noConfusion h
      · simp only [pRun, hE] at h
        have h1 := ih .prim ts eof a r0 trivial hts hE
        exact ih (.modL a) r0 eof t r h1.1 h1.2 h
    | .modL a =>
      match ts with
      | [] =>
        simp only [pRun, Except.ok.injEq, Prod.mk.injEq] at h
        obtain ⟨rfl, rfl⟩ := h
        exact ⟨hl, hts⟩
      | (tok, q) :: ts2 =>
        match tok with
        | Tok.tMod =>
          rcases hE : pRun f .prim ts2 eof with e | ⟨b, r2⟩
          · simp only [pRun, hE] at h
            exact Except.noConfusion h
          · simp only [pRun, hE] at h
            have h1 := ih .prim ts2 eof b r2 trivial (toksOk_tail hts) hE
            exact ih (.modL (PlfNode.bin PlfOp.Mod a b)) r2 eof t r ⟨hl, h1.1⟩ h1.2 h
        | Tok.tEq | Tok.tNeq | Tok.tGe | Tok.tGt | Tok.tLe | Tok.tLt | Tok.tAnd
        | Tok.tOr | Tok.tQ | Tok.tColon | Tok.tBrOpen | Tok.tBrClose | Tok.tVar =>
          simp only [pRun, Except.ok.injEq, Prod.mk.injEq] at h
          obtain ⟨rfl, rfl⟩ := h
          exact ⟨hl, hts⟩
        | Tok.tLit v =>
          simp only [pRun, Except.ok.injEq, Prod.mk.injEq] at h
          obtain ⟨rfl, rfl⟩ := h
          exact ⟨hl, hts⟩
    | .cmp =>
      rcases hE : pRun f .mod ts eof with e | ⟨a, r0⟩
      · simp only [pRun, hE] at h
        exact Except.noConfusion h
      · simp only [pRun, hE] at h
        have h1 := ih .mod ts eof a r0 trivial hts hE
        exact ih (.cmpL a) r0 eof t r h1.1 h1.2 h
    | .cmpL a =>
      match ts with
      | [] =>
        simp only [pRun, Except.ok.injEq, Prod.mk.injEq] at h
        obtain ⟨rfl, rfl⟩ := h
        exact ⟨hl, hts⟩
      | (tok, q) :: ts2 =>
        match tok with
        | Tok.tGe =>
          rcases hE : pRun f .mod ts2 eof with e | ⟨b, r2⟩
          · simp only [pRun, hE] at h
            exact Except.noConfusion h
          · simp only [pRun, hE] at h
            have h1 := ih .mod ts2 eof b r2 trivial (toksOk_tail hts) hE
            exact ih (.cmpL (PlfNode.bin PlfOp.GreaterEq a b)) r2 eof t r ⟨hl, h1.1⟩ h1.2 h
        | Tok.tGt =>
          rcases hE : pRun f .mod ts2 eof with e | ⟨b, r2⟩
          · simp only [pRun, hE] at h
            exact Except.noConfusion h
          · simp only [pRun, hE] at h
            have h1 := ih .mod ts2 eof b r2 trivial (toksOk_tail hts) hE
            exact ih (.cmpL (PlfNode.bin PlfOp.Greater a b)) r2 eof t r ⟨hl, h1.1⟩ h1.2 h
        | Tok.tLe =>
          rcases hE : pRun f .mod ts2 eof with e | ⟨b, r2⟩
          · simp only [pRun, hE] at h
            exact Except.noConfusion h
          · simp only [pRun, hE] at h
            have h1 := ih .mod ts2 eof b r2 trivial (toksOk_tail hts) hE
            exact ih (.cmpL (PlfNode.bin PlfOp.LessEq a b)) r2 eof t r ⟨hl, h1.1⟩ h1.2 h
        | Tok.tLt =>
          rcases hE : pRun f .mod ts2 eof with e | ⟨b, r2⟩
          · simp only [pRun, hE] at h
            exact Except.noConfusion h
          · simp only [pRun, hE] at h
            have h1 := ih .mod ts2 eof b r2 trivial (toksOk_tail hts) hE
            exact ih (.cmpL (PlfNode.bin PlfOp.Less a b)) r2 eof t r ⟨hl, h1.1⟩ h1.2 h
        | Tok.tMod | Tok.tEq | Tok.tNeq | Tok.tAnd | Tok.tOr | Tok.tQ | Tok.tColon
        | Tok.tBrOpen | Tok.tBrClose | Tok.tVar =>
          simp only [pRun, Except.ok.injEq, Prod.mk.injEq] at h
          obtain ⟨rfl, rfl⟩ := h
          exact ⟨hl, hts⟩
        | Tok.tLit v =>
          simp only [pRun, Except.ok.injEq, Prod.mk.injEq] at h
          obtain ⟨rfl, rfl⟩ := h
          exact ⟨hl, hts⟩
    | .eq =>
      rcases hE : pRun f .cmp ts eof with e | ⟨a, r0⟩
      · simp only [pRun, hE] at h
        exact Except.noConfusion h
      · simp only [pRun, hE] at h
        have h1 := ih .cmp ts eof a r0 trivial hts hE
        exact ih (.eqL a) r0 eof t r h1.1 h1.2 h
    | .eqL a =>
      match ts with
      | [] =>
        simp only [pRun, Except.ok.injEq, Prod.mk.injEq] at h
        obtain ⟨rfl, rfl⟩ := h
        exact ⟨hl, hts⟩
      | (tok, q) :: ts2 =>
        match tok with
        | Tok.tEq =>
          rcases hE : pRun f .cmp ts2 eof with e | ⟨b, r2⟩
          · simp only [pRun, hE] at h
            exact Except.noConfusion h
          · simp only [pRun, hE] at h
            have h1 := ih .cmp ts2 eof b r2 trivial (toksOk_tail hts) hE
            exact ih (.eqL (PlfNode.bin PlfOp.Eq a b)) r2 eof t r ⟨hl, h1.1⟩ h1.2 h
        | Tok.tNeq =>
          rcases hE : pRun f .cmp ts2 eof with e | ⟨b, r2⟩
          · simp only [pRun, hE] at h
            exact Except.noConfusion h
          · simp only [pRun, hE] at h
            have h1 := ih .cmp ts2 eof b r2 trivial (toksOk_tail hts) hE
            exact ih (.eqL (PlfNode.bin PlfOp.NotEq a b)) r2 eof t r ⟨hl, h1.1⟩ h1.2 h
        | Tok.tMod | Tok.tGe | Tok.tGt | Tok.tLe | Tok.tLt | Tok.tAnd | Tok.tOr
        | Tok.tQ | Tok.tColon | Tok.tBrOpen | Tok.tBrClose | Tok.tVar =>
          simp only [pRun, Except.ok.injEq, Prod.mk.injEq] at h
          obtain ⟨rfl, rfl⟩ := h
          exact ⟨hl, hts⟩
        | Tok.tLit v =>
          simp only [pRun, Except.ok.injEq, Prod.mk.injEq] at h
          obtain ⟨rfl, rfl⟩ := h
          exact ⟨hl, hts⟩
    | .and =>
      rcases hE : pRun f .eq ts eof with e | ⟨a, r0⟩
      · simp only [pRun, hE] at h
        exact Except.noConfusion h
      · have h1 := ih .eq ts eof a r0 trivial hts hE
        match r0 with
        | [] =>
          simp only [pRun, hE, Except.ok.injEq, Prod.mk.injEq] at h
          obtain ⟨rfl, rfl⟩ := h
          exact ⟨h1.1, h1.2⟩
        | (Tok.tAnd, q2) :: r2 =>
          rcases hE2 : pRun f .and r2 eof with e2 | ⟨b, r3⟩
          · simp only [pRun, hE, hE2] at h
            exact Except.noConfusion h
          · simp only [pRun, hE, hE2, Except.ok.injEq, Prod.mk.injEq] at h
            obtain ⟨rfl, rfl⟩ := h
            have h2 := ih .and r2 eof b r3 trivial (toksOk_tail h1.2) hE2
            exact ⟨⟨h1.1, h2.1⟩, h2.2⟩
        | (Tok.tMod, q2) :: r2 | (Tok.tEq, q2) :: r2 | (Tok.tNeq, q2) :: r2
        | (Tok.tGe, q2) :: r2 | (Tok.tGt, q2) :: r2 | (Tok.tLe, q2) :: r2
        | (Tok.tLt, q2) :: r2 | (Tok.tOr, q2) :: r2 | (Tok.tQ, q2) :: r2
        | (Tok.tColon, q2) :: r2 | (Tok.tBrOpen, q2) :: r2 | (Tok.tBrClose, q2) :: r2
        | (Tok.tVar, q2) :: r2 =>
          simp only [pRun, hE, Except.ok.injEq, Prod.mk.injEq] at h
          obtain ⟨rfl, rfl⟩ := h
          exact ⟨h1.1, h1.2⟩
        | (Tok.tLit v, q2) :: r2 =>
          simp only [pRun, hE, Except.ok.injEq, Prod.mk.injEq] at h
          obtain ⟨rfl, rfl⟩ := h
          exact ⟨h1.1, h1.2⟩
    | .or =>
      rcases hE : pRun f .and ts eof with e | ⟨a, r0⟩
      · simp only [pRun, hE] at h
        exact Except.noConfusion h
      · have h1 := ih .and ts eof a r0 trivial hts hE
        match r0 with
        | [] =>
          simp only [pRun, hE, Except.ok.injEq, Prod.mk.injEq] at h
          obtain ⟨rfl, rfl⟩ := h
          exact ⟨h1.1, h1.2⟩
        | (Tok.tOr, q2) :: r2 =>
          rcases hE2 : pRun f .or r2 eof with e2 | ⟨b, r3⟩
          · simp only [pRun, hE, hE2] at h
            exact Except.noConfusion h
          · simp only [pRun, hE, hE2, Except.ok.injEq, Prod.mk.injEq] at h
            obtain ⟨rfl, rfl⟩ := h
            have h2 := ih .or r2 eof b r3 trivial (toksOk_tail h1.2) hE2
            exact ⟨⟨h1.1, h2.1⟩, h2.2⟩
        | (Tok.tMod, q2) :: r2 | (Tok.tEq, q2) :: r2 | (Tok.tNeq, q2) :: r2
        | (Tok.tGe, q2) :: r2 | (Tok.tGt, q2) :: r2 | (Tok.tLe, q2) :: r2
        | (Tok.tLt, q2) :: r2 | (Tok.tAnd, q2) :: r2 | (Tok.tQ, q2) :: r2
        | (Tok.tColon, q2) :: r2 | (Tok.tBrOpen, q2) :: r2 | (Tok.tBrClose, q2) :: r2
        | (Tok.tVar, q2) :: r2 =>
          simp only [pRun, hE, Except.ok.injEq, Prod.mk.injEq] at h
          obtain ⟨rfl, rfl⟩ := h
          exact ⟨h1.1, h1.2⟩
        | (Tok.tLit v, q2) :: r2 =>
          simp only [pRun, hE, Except.ok.injEq, Prod.mk.injEq] at h
          obtain ⟨rfl, rfl⟩ := h
          exact ⟨h1.1, h1.2⟩
    | .tern =>
      rcases hE : pRun f .or ts eof with e | ⟨a, r0⟩
      · simp only [pRun, hE] at h
        exact Except.noConfusion h
      · have h1 := ih .or ts eof a r0 trivial hts hE
        match r0 with
        | [] =>
          simp only [pRun, hE, Except.ok.injEq, Prod.mk.injEq] at h
          obtain ⟨rfl, rfl⟩ := h
          exact ⟨h1.1, h1.2⟩
        | (Tok.tQ, q2) :: r2 =>
          rcases hE2 : pRun f .tern r2 eof with e2 | ⟨b, r3⟩
          · simp only [pRun, hE, hE2] at h
            exact Except.noConfusion h
          · have h2 := ih .tern r2 eof b r3 trivial (toksOk_tail h1.2) hE2
            match r3 with
            | [] =>
              simp only [pRun, hE, hE2] at h
              exact Except.noConfusion h
            | (Tok.tColon, q3) :: r4 =>
              rcases hE3 : pRun f .tern r4 eof with e3 | ⟨c, r5⟩
              · simp only [pRun, hE, hE2, hE3] at h
                exact Except.noConfusion h
              · simp only [pRun, hE, hE2, hE3, Except.ok.injEq, Prod.mk.injEq] at h
                obtain ⟨rfl, rfl⟩ := h
                have h3 := ih .tern r4 eof c r5 trivial (toksOk_tail h2.2) hE3
                exact ⟨⟨h1.1, h2.1, h3.1⟩, h3.2⟩
            | (Tok.tMod, q3) :: r4 | (Tok.tEq, q3) :: r4 | (Tok.tNeq, q3) :: r4
            | (Tok.tGe, q3) :: r4 | (Tok.tGt, q3) :: r4 | (Tok.tLe, q3) :: r4
            | (Tok.tLt, q3) :: r4 | (Tok.tAnd, q3) :: r4 | (Tok.tOr, q3) :: r4
            | (Tok.tQ, q3) :: r4 | (Tok.tBrOpen, q3) :: r4 | (Tok.tBrClose, q3) :: r4
            | (Tok.tVar, q3) :: r4 =>
              simp only [pRun, hE, hE2] at h
              exact Except.noConfusion h
            | (Tok.tLit v, q3) :: r4 =>
              simp only [pRun, hE, hE2] at h
              exact Except.noConfusion h
        | (Tok.tMod, q2) :: r2 | (Tok.tEq, q2) :: r2 | (Tok.tNeq, q2) :: r2
        | (Tok.tGe, q2) :: r2 | (Tok.tGt, q2) :: r2 | (Tok.tLe, q2) :: r2
        | (Tok.tLt, q2) :: r2 | (Tok.tAnd, q2) :: r2 | (Tok.tOr, q2) :: r2
        | (Tok.tColon, q2) :: r2 | (Tok.tBrOpen, q2) :: r2 | (Tok.tBrClose, q2) :: r2
        | (Tok.tVar, q2) :: r2 =>
          simp only [pRun, hE, Except.ok.injEq, Prod.mk.injEq] at h
          obtain ⟨rfl, rfl⟩ := h
          exact ⟨h1.1, h1.2⟩
        | (Tok.tLit v, q2) :: r2 =>
          simp only [pRun, hE, Except.ok.injEq, Prod.mk.injEq] at h
          obtain ⟨rfl, rfl⟩ := h
          exact ⟨h1.1, h1.2⟩

/-- Any AST produced by `parse_plural_rules` has u32-sized literals. -/
theorem parse_litsOk (s : String) (t : PlfNode)
    (h : parse_plural_rules s = .ok t) : litsOk t := by
  simp only [parse_plural_rules] at h
  rcases hE : lexChars (s.data.length + 1) s.data 0 with e | ts0
  · simp only [hE] at h
    exact Except.noConfusion h
  · simp only [hE] at h
    rcases hP : pRun (16 * ts0.length + 16) PLevel.tern ts0 s.data.length with e | ⟨t0, r0⟩
    · simp only [hP] at h
      exact Except.noConfusion h
    · match r0 with
      | [] =>
        simp only [hP, Except.ok.injEq] at h
        subst h
        exact (pRun_litsOk _ PLevel.tern _ _ _ _ trivial (lexChars_toksOk _ _ _ _ hE) hP).1
      | (tok, q) :: r1 =>
        simp only [hP] at h
        exact Except.noConfusion h

/-- C3: for every expression string E accepted by `parse_plural_rules`, the
string `debug_dump (parse_plural_rules E)` is itself accepted by
`parse_plural_rules`, and dumping the re-parsed AST gives back the same
string — dump-after-parse is idempotent on the image of `debug_dump`. -/
theorem c3_dump_parse_idempotent (E : String) (t : PlfNode)
    (h : parse_plural_rules E = .ok t) :
    ∃ t2, parse_plural_rules (PlfNode.debug_dump t) = .ok t2 ∧
      PlfNode.debug_dump t2 = PlfNode.debug_dump t :=
  ⟨t, parse_dump t (parse_litsOk E t h), rfl⟩

theorem c3_dump_parse_idempotent_witness :
    ∃ t2, parse_plural_rules
        (PlfNode.debug_dump (PlfNode.bin PlfOp.Mod PlfNode.var (PlfNode.lit 2))) = .ok t2 ∧
      PlfNode.debug_dump t2 =
        PlfNode.debug_dump (PlfNode.bin PlfOp.Mod PlfNode.var (PlfNode.lit 2)) :=
  c3_dump_parse_idempotent "n%2" (PlfNode.bin PlfOp.Mod PlfNode.var (PlfNode.lit 2)) (by rfl)

/-! ### C7: endianness equivalence -/

/-- Follows the spec's words (§6) rather than the loader code: the logical
entries of an MO file — for each index `n` below the stored string count,
the original byte segment and the translation byte segment named by the
`(length, address)` descriptors of the two tables.  Used as the reference
notion of "two files encoding identical entries". -/
def mo_entries (buf : List Nat) (little : Bool) : List (List Nat × List Nat) :=
  (List.range (u32At buf little 8)).map (fun n =>
    (segAt buf (u32At buf little (u32At buf little 12 + 8 * n + 4))
       (u32At buf little (u32At buf little 12 + 8 * n)),
     segAt buf (u32At buf little (u32At buf little 16 + 8 * n + 4))
       (u32At buf little (u32At buf little 16 + 8 * n))))

theorem mo_entries_length (buf : List Nat) (little : Bool) :
    (mo_entries buf little).length = u32At buf little 8 := by
  unfold mo_entries
  rw [List.length_map, List.length_range]

theorem mo_entries_getD {buf : List Nat} {little : Bool} {n : Nat}
    (h : n < u32At buf little 8) :
    (mo_entries buf little).getD n ([], []) =
      (segAt buf (u32At buf little (u32At buf little 12 + 8 * n + 4))
         (u32At buf little (u32At buf little 12 + 8 * n)),
       segAt buf (u32At buf little (u32At buf little 16 + 8 * n + 4))
         (u32At buf little (u32At buf little 16 + 8 * n))) := by
  unfold mo_entries
  rw [List.getD_eq_getElem?_getD, List.getElem?_map, List.getElem?_range h]
  rfl

theorem takeWhile_stopByte {q : Nat → Bool} {b : Nat} (hb : q b = false) :
    ∀ (xs rest : List Nat), (xs ++ b :: rest).takeWhile q = xs.takeWhile q := by
  intro xs rest
  induction xs with
  | nil => simp [List.takeWhile_cons, hb]
  | cons x xs ih => simp only [List.cons_append, List.takeWhile_cons, ih]

/-- A validated descriptor's C string is determined by its byte segment:
with the NUL terminator in place, reading up to the next NUL from the
string's address stays inside the segment. -/
theorem cstrAt_eq_seg {buf : List Nat} {adr len : Nat}
    (hfit : adr + len + 1 ≤ buf.length) (hnul : byteAt buf (adr + len) = 0) :
    cstrAt buf adr = (segAt buf adr len).takeWhile (fun b => b != 0) := by
  have hlt : adr + len < buf.length := by omega
  have h2 : buf[adr + len] = 0 := by
    simpa [byteAt, List.getD_eq_getElem?_getD, List.getElem?_eq_getElem hlt] using hnul
  have hdrop : buf.drop adr = (buf.drop adr).take len ++ ((0 : Nat) :: buf.drop (adr + len + 1)) := by
    calc buf.drop adr
        = (buf.drop adr).take len ++ (buf.drop adr).drop len :=
          (List.take_append_drop _ _).symm
      _ = (buf.drop adr).take len ++ buf.drop (adr + len) := by
          rw [List.drop_drop, Nat.add_comm]
      _ = (buf.drop adr).take len ++ ((0 : Nat) :: buf.drop (adr + len + 1)) := by
          rw [List.drop_eq_getElem_cons hlt, h2]
  unfold cstrAt segAt
  conv_lhs => rw [hdrop]
  exact takeWhile_stopByte rfl _ _

theorem string_info_at_ok_inv {buf : List Nat} {little : Bool} {a : Nat}
    {v : Nat × Nat} (h : string_info_at buf little a = .ok v) :
    entryOkAt buf little a := by
  simp only [string_info_at] at h
  by_cases h1 : u32At buf little (a + 4) + u32At buf little a + 1 ≤ buf.length
  · refine ⟨h1, ?_⟩
    by_cases h2 : byteAt buf (u32At buf little (a + 4) + u32At buf little a) = 0
    · exact h2
    · rw [if_pos h1, if_neg h2] at h
      exact Except.noConfusion h
  · rw [if_neg h1] at h
    exact Except.noConfusion h

/-- A successful table scan validated every descriptor. -/
theorem checkTable_ok_inv (buf : List Nat) (little : Bool) (offs : Nat) :
    ∀ cnt i, checkTable buf little offs i cnt = .ok () →
      ∀ k, i ≤ k → k < i + cnt → entryOkAt buf little (offs + 8 * k) := by
  intro cnt
  induction cnt with
  | zero =>
    intro i h k hk1 hk2
    exact absurd hk2 (by omega)
  | succ cnt ih =>
    intro i h k hk1 hk2
    rcases hS : string_info_at buf little (offs + 8 * i) with e | v
    · simp only [checkTable, hS] at h
      exact Except.noConfusion h
    · simp only [checkTable, hS] at h
      rcases Nat.eq_or_lt_of_le hk1 with rfl | hlt
      · exact string_info_at_ok_inv hS
      · exact ih (i + 1) h k hlt (by omega)

/-- Inversion of a successful `load_body`: the catalogue's fields, the
validated tables and the plural-forms extraction. -/
theorem load_body_ok_inv {buf : List Nat} {little : Bool} {c : trans_catalogue}
    (h : load_body buf little = .ok c) :
    c.is_little_endian = little ∧ c.buf = buf ∧
      c.number_of_strings = u32At buf little 8 ∧
      c.offs_orig_table = u32At buf little 12 ∧
      c.offs_trans_table = u32At buf little 16 ∧
      u32At buf little 8 ≠ 0 ∧
      checkTable buf little (u32At buf little 12) 0 (u32At buf little 8) = .ok () ∧
      checkTable buf little (u32At buf little 16) 0 (u32At buf little 8) = .ok () ∧
      plf_of_headers ((segAt buf (u32At buf little (u32At buf little 16 + 4))
          (u32At buf little (u32At buf little 16))).splitOn 10) =
        .ok (c.num_plural_forms, c.plf_rules) := by
  unfold load_body at h
  split at h
  · exact Except.noConfusion h
  split at h
  · split at h
    · exact Except.noConfusion h
    · rename_i u1 heq1
      split at h
      · exact Except.noConfusion h
      · rename_i u2 heq2
        split at h
        · exact Except.noConfusion h
        · rename_i hN0
          split at h
          · exact Except.noConfusion h
          · rename_i hmeta
            split at h
            · exact Except.noConfusion h
            · rename_i u3 heq3
              split at h
              · exact Except.noConfusion h
              · rename_i npl rules heq4
                split at h
                · exact Except.noConfusion h
                · rename_i u4 heq5
                  injection h with h6
                  subst h6
                  exact ⟨rfl, rfl, rfl, rfl, rfl, hN0, heq1, heq2, heq4⟩
  · exact Except.noConfusion h

theorem list_find_congr {α : Type} : ∀ (l : List α) (p q : α → Bool),
    (∀ a ∈ l, p a = q a) → l.find? p = l.find? q := by
  intro l
  induction l with
  | nil => intro p q h; rfl
  | cons x xs ih =>
    intro p q h
    simp only [List.find?]
    rw [h x (by simp)]
    cases hq : q x
    · exact ih p q (fun a ha => h a (List.mem_cons_of_mem _ ha))
    · rfl

/-- Single-catalogue libraries answer every query identically when the two
catalogues agree on their string count, their original strings, their
translations and their plural translations (on the real entries). -/
theorem create_single_congr (c1 c2 : trans_catalogue)
    (hN : c1.number_of_strings = c2.number_of_strings)
    (horig : ∀ n, 0 < n → n < c1.number_of_strings →
      c1.get_nth_orig_string n = c2.get_nth_orig_string n)
    (htr : ∀ n, 0 < n → n < c1.number_of_strings →
      c1.get_nth_translation n = c2.get_nth_translation n)
    (htrpl : ∀ n num, 0 < n → n < c1.number_of_strings →
      c1.get_nth_pl_translation n num = c2.get_nth_pl_translation n num) :
    (∀ msgid, (trans_library.create [c1]).get msgid = (trans_library.create [c2]).get msgid) ∧
    (∀ msgid msgid_pl n, (trans_library.create [c1]).get_pl msgid msgid_pl n =
      (trans_library.create [c2]).get_pl msgid msgid_pl n) ∧
    (∀ ctx msgid, (trans_library.create [c1]).get_ctx ctx msgid =
      (trans_library.create [c2]).get_ctx ctx msgid) ∧
    (∀ ctx msgid msgid_pl n, (trans_library.create [c1]).get_ctx_pl ctx msgid msgid_pl n =
      (trans_library.create [c2]).get_ctx_pl ctx msgid msgid_pl n) := by
  have hkeyd : ∀ d ∈ all_descriptors [c1], origKeyOf [c1] d = origKeyOf [c2] d := by
    intro d hd
    obtain ⟨h1, h2, h3⟩ := mem_all_descriptors.mp hd
    rcases d with ⟨i, n⟩
    match i, h1 with
    | 0, _ => exact horig n h2 h3
  have hsingle : ∀ (c : trans_catalogue), all_descriptors [c] =
      ((List.range c.number_of_strings).filter (fun n => 0 < n)).map (fun n => (0, n)) := by
    intro c
    simp only [all_descriptors, List.length_cons, List.length_nil]
    rw [show List.range 1 = [0] from rfl]
    simp
  have hdesc : all_descriptors [c1] = all_descriptors [c2] := by
    rw [hsingle, hsingle, hN]
  have hdec : (all_descriptors [c1]).map (fun d => (origKeyOf [c1] d, d)) =
      (all_descriptors [c2]).map (fun d => (origKeyOf [c2] d, d)) := by
    rw [← hdesc]
    exact List.map_congr_left (fun d hd => by rw [hkeyd d hd])
  have hvec : build_string_table [c1] = build_string_table [c2] := by
    unfold build_string_table
    rw [hdec]
  have ffind : ∀ id, (trans_library.create [c1]).find_in_table id =
      (trans_library.create [c2]).find_in_table id := by
    intro id
    show (build_string_table [c1]).find? (fun d => origKeyOf [c1] d == id) =
      (build_string_table [c2]).find? (fun d => origKeyOf [c2] d == id)
    rw [← hvec]
    exact list_find_congr _ _ _ (fun d hd => by rw [hkeyd d (mem_string_vec hd)])
  have hfound : ∀ id d, (trans_library.create [c2]).find_in_table id = some d →
      d.1 = 0 ∧ 0 < d.2 ∧ d.2 < c2.number_of_strings := by
    intro id d hfd
    have hfd2 : (build_string_table [c2]).find?
        (fun d => origKeyOf [c2] d == id) = some d := hfd
    have hmem := mem_all_descriptors.mp (mem_string_vec (List.mem_of_find?_eq_some hfd2))
    have hd1 : d.1 = 0 := by
      have h1 := hmem.1
      simp only [List.length_cons, List.length_nil] at h1
      omega
    refine ⟨hd1, hmem.2.1, ?_⟩
    have h3 := hmem.2.2
    rw [hd1] at h3
    exact h3
  have flook : ∀ id, (trans_library.create [c1]).lookup_string_in_table id =
      (trans_library.create [c2]).lookup_string_in_table id := by
    intro id
    unfold trans_library.lookup_string_in_table
    rw [ffind id]
    rcases hfd : (trans_library.create [c2]).find_in_table id with _ | d
    · rfl
    · obtain ⟨hd1, hd2, hd3⟩ := hfound id d hfd
      refine congrArg some ?_
      rcases d with ⟨i, n⟩
      simp only at hd1
      subst hd1
      exact htr n hd2 (by rw [hN]; exact hd3)
  have flookpl : ∀ id n, (trans_library.create [c1]).lookup_pl_string_in_table id n =
      (trans_library.create [c2]).lookup_pl_string_in_table id n := by
    intro id n
    unfold trans_library.lookup_pl_string_in_table
    rw [ffind id]
    rcases hfd : (trans_library.create [c2]).find_in_table id with _ | d
    · rfl
    · obtain ⟨hd1, hd2, hd3⟩ := hfound id d hfd
      refine congrArg some ?_
      rcases d with ⟨i, m⟩
      simp only at hd1
      subst hd1
      exact htrpl m n hd2 (by rw [hN]; exact hd3)
  refine ⟨fun msgid => ?_, fun msgid msgid_pl n => ?_, fun ctx msgid => ?_,
    fun ctx msgid msgid_pl n => ?_⟩
  · unfold trans_library.get
    rw [flook]
  · unfold trans_library.get_pl
    rw [flookpl]
  · unfold trans_library.get_ctx
    rw [flook]
  · unfold trans_library.get_ctx_pl
    rw [flookpl]

/-- C7: two MO files encoding identical entries (in the sense of the spec's
file-format description), one little-endian and one big-endian (magic
`0x950412DE` stored in either byte order), load to catalogues whose
single-catalogue libraries return byte-identical results for every `get`,
`get_pl`, `get_ctx` and `get_ctx_pl` query. -/
theorem c7_endianness_equivalence (buf1 buf2 : List Nat) (c1 c2 : trans_catalogue)
    (hm1 : u32At buf1 true 0 = 0x950412DE)
    (hm2 : u32At buf2 true 0 = 0xDE120495)
    (hload1 : load_from_file buf1 = .ok c1)
    (hload2 : load_from_file buf2 = .ok c2)
    (hent : mo_entries buf1 true = mo_entries buf2 false) :
    (∀ msgid, (trans_library.create [c1]).get msgid = (trans_library.create [c2]).get msgid) ∧
    (∀ msgid msgid_pl n, (trans_library.create [c1]).get_pl msgid msgid_pl n =
      (trans_library.create [c2]).get_pl msgid msgid_pl n) ∧
    (∀ ctx msgid, (trans_library.create [c1]).get_ctx ctx msgid =
      (trans_library.create [c2]).get_ctx ctx msgid) ∧
    (∀ ctx msgid msgid_pl n, (trans_library.create [c1]).get_ctx_pl ctx msgid msgid_pl n =
      (trans_library.create [c2]).get_ctx_pl ctx msgid msgid_pl n) := by
  unfold load_from_file at hload1 hload2
  split at hload1
  · exact Except.noConfusion hload1
  split at hload2
  · exact Except.noConfusion hload2
  have hne2 : ¬(u32At buf2 true 0 = 0x950412DE) := by rw [hm2]; decide
  rw [if_neg hne2] at hload2
  obtain ⟨he1, hb1, hN1, hoO1, hoT1, hnz1, hct11, hct12, hplf1⟩ := load_body_ok_inv hload1
  obtain ⟨he2, hb2, hN2, hoO2, hoT2, hnz2, hct21, hct22, hplf2⟩ := load_body_ok_inv hload2
  have hNeq : u32At buf1 true 8 = u32At buf2 false 8 := by
    have h1 := mo_entries_length buf1 true
    have h2 := mo_entries_length buf2 false
    rw [← h1, ← h2, hent]
  have hseg : ∀ n, n < u32At buf1 true 8 →
      (segAt buf1 (u32At buf1 true (u32At buf1 true 12 + 8 * n + 4))
          (u32At buf1 true (u32At buf1 true 12 + 8 * n)) =
        segAt buf2 (u32At buf2 false (u32At buf2 false 12 + 8 * n + 4))
          (u32At buf2 false (u32At buf2 false 12 + 8 * n))) ∧
      (segAt buf1 (u32At buf1 true (u32At buf1 true 16 + 8 * n + 4))
          (u32At buf1 true (u32At buf1 true 16 + 8 * n)) =
        segAt buf2 (u32At buf2 false (u32At buf2 false 16 + 8 * n + 4))
          (u32At buf2 false (u32At buf2 false 16 + 8 * n))) := by
    intro n hn
    have hg1 := mo_entries_getD hn
    have hn2 : n < u32At buf2 false 8 := hNeq ▸ hn
    have hg2 := mo_entries_getD hn2
    have hp : ((mo_entries buf1 true).getD n ([], [])) =
        ((mo_entries buf2 false).getD n ([], [])) := by rw [hent]
    have hq := (hg1.symm.trans hp).trans hg2
    exact ⟨congrArg Prod.fst hq, congrArg Prod.snd hq⟩
  have hok1O : ∀ k, k < u32At buf1 true 8 → entryOkAt buf1 true (u32At buf1 true 12 + 8 * k) :=
    fun k hk => checkTable_ok_inv buf1 true _ _ 0 hct11 k (Nat.zero_le k) (by omega)
  have hok1T : ∀ k, k < u32At buf1 true 8 → entryOkAt buf1 true (u32At buf1 true 16 + 8 * k) :=
    fun k hk => checkTable_ok_inv buf1 true _ _ 0 hct12 k (Nat.zero_le k) (by omega)
  have hok2O : ∀ k, k < u32At buf2 false 8 → entryOkAt buf2 false (u32At buf2 false 12 + 8 * k) :=
    fun k hk => checkTable_ok_inv buf2 false _ _ 0 hct21 k (Nat.zero_le k) (by omega)
  have hok2T : ∀ k, k < u32At buf2 false 8 → entryOkAt buf2 false (u32At buf2 false 16 + 8 * k) :=
    fun k hk => checkTable_ok_inv buf2 false _ _ 0 hct22 k (Nat.zero_le k) (by omega)
  have h0 := (hseg 0 (by omega)).2
  simp only [Nat.mul_zero, Nat.add_zero] at h0
  have hple : c1.num_plural_forms = c2.num_plural_forms ∧ c1.plf_rules = c2.plf_rules := by
    have h5 := hplf1
    rw [h0] at h5
    have h6 := hplf2.symm.trans h5
    injection h6 with h7
    exact ⟨(congrArg Prod.fst h7).symm, (congrArg Prod.snd h7).symm⟩
  have hNc : c1.number_of_strings = c2.number_of_strings := by
    rw [hN1, hN2, hNeq]
  have horigc : ∀ n, 0 < n → n < c1.number_of_strings →
      c1.get_nth_orig_string n = c2.get_nth_orig_string n := by
    intro n hpos hlt
    rw [hN1] at hlt
    unfold trans_catalogue.get_nth_orig_string trans_catalogue.addr_to_cstr
      trans_catalogue.get_u32_unsafe
    rw [hb1, he1, hoO1, hb2, he2, hoO2]
    rw [cstrAt_eq_seg (hok1O n hlt).1 (hok1O n hlt).2,
      cstrAt_eq_seg (hok2O n (hNeq ▸ hlt)).1 (hok2O n (hNeq ▸ hlt)).2]
    rw [(hseg n hlt).1]
  have htrc : ∀ n, 0 < n → n < c1.number_of_strings →
      c1.get_nth_translation n = c2.get_nth_translation n := by
    intro n hpos hlt
    rw [hN1] at hlt
    unfold trans_catalogue.get_nth_translation trans_catalogue.addr_to_cstr
      trans_catalogue.get_u32_unsafe
    rw [hb1, he1, hoT1, hb2, he2, hoT2]
    rw [cstrAt_eq_seg (hok1T n hlt).1 (hok1T n hlt).2,
      cstrAt_eq_seg (hok2T n (hNeq ▸ hlt)).1 (hok2T n (hNeq ▸ hlt)).2]
    rw [(hseg n hlt).2]
  have htrplc : ∀ n num, 0 < n → n < c1.number_of_strings →
      c1.get_nth_pl_translation n num = c2.get_nth_pl_translation n num := by
    intro n num hpos hlt
    rw [hN1] at hlt
    simp only [trans_catalogue.get_nth_pl_translation, trans_catalogue.get_u32_unsafe]
    rw [hb1, he1, hoT1, hb2, he2, hoT2, hple.1, hple.2, (hseg n hlt).2]
  exact create_single_congr c1 c2 hNc horigc htrc htrplc

/-- A minimal little-endian MO file: metadata entry (UTF-8 charset) plus the
entry `"apple"` → `"Apfel"`. -/
def c7bufLE : List Nat :=
  [222, 18, 4, 149, 0, 0, 0, 0, 2, 0, 0, 0, 28, 0, 0, 0, 44, 0, 0, 0, 0, 0, 0, 0, 0, 0, 0, 0, 0, 0, 0, 0, 60, 0, 0, 0, 5, 0, 0, 0, 61, 0, 0, 0, 40, 0, 0, 0, 67, 0, 0, 0, 5, 0, 0, 0, 108, 0, 0, 0, 0, 97, 112, 112, 108, 101, 0, 67, 111, 110, 116, 101, 110, 116, 45, 84, 121, 112, 101, 58, 32, 116, 101, 120, 116, 47, 112, 108, 97, 105, 110, 59, 32, 99, 104, 97, 114, 115, 101, 116, 61, 85, 84, 70, 45, 56, 10, 0, 65, 112, 102, 101, 108, 0]

/-- The same MO file content serialized big-endian. -/
def c7bufBE : List Nat :=
  [149, 4, 18, 222, 0, 0, 0, 0, 0, 0, 0, 2, 0, 0, 0, 28, 0, 0, 0, 44, 0, 0, 0, 0, 0, 0, 0, 0, 0, 0, 0, 0, 0, 0, 0, 60, 0, 0, 0, 5, 0, 0, 0, 61, 0, 0, 0, 40, 0, 0, 0, 67, 0, 0, 0, 5, 0, 0, 0, 108, 0, 97, 112, 112, 108, 101, 0, 67, 111, 110, 116, 101, 110, 116, 45, 84, 121, 112, 101, 58, 32, 116, 101, 120, 116, 47, 112, 108, 97, 105, 110, 59, 32, 99, 104, 97, 114, 115, 101, 116, 61, 85, 84, 70, 45, 56, 10, 0, 65, 112, 102, 101, 108, 0]

/-- The catalogue loaded from `c7bufLE`. -/
def c7catLE : trans_catalogue := ⟨true, c7bufLE, 1, PlfNode.lit 0, 2, 28, 44⟩

/-- The catalogue loaded from `c7bufBE`. -/
def c7catBE : trans_catalogue := ⟨false, c7bufBE, 1, PlfNode.lit 0, 2, 28, 44⟩

theorem c7_endianness_equivalence_witness :
    (∀ msgid, (trans_library.create [c7catLE]).get msgid =
      (trans_library.create [c7catBE]).get msgid) ∧
    (∀ msgid msgid_pl n, (trans_library.create [c7catLE]).get_pl msgid msgid_pl n =
      (trans_library.create [c7catBE]).get_pl msgid msgid_pl n) ∧
    (∀ ctx msgid, (trans_library.create [c7catLE]).get_ctx ctx msgid =
      (trans_library.create [c7catBE]).get_ctx ctx msgid) ∧
    (∀ ctx msgid msgid_pl n, (trans_library.create [c7catLE]).get_ctx_pl ctx msgid msgid_pl n =
      (trans_library.create [c7catBE]).get_ctx_pl ctx msgid msgid_pl n) :=
  c7_endianness_equivalence c7bufLE c7bufBE c7catLE c7catBE (by decide) (by decide)
    (by rfl) (by rfl) (by decide)

end CataLibintl
